import Mathlib

/-!
Verification of the `lockfree_queues` single-producer broadcast queue
(`src/include/lockfree_queues/sp_broadcast_queue.h` and
`src/include/lockfree_queues/utilities.h`).

The C++ queue is embedded shallowly as a sequential state machine: every
public operation becomes a pure function on an explicit `Queue` record and
the concurrent API is studied through the interleaving of these atomic
operations (`Step` / `Reachable`).  `size_t` counters (`_write_idx`,
`_read_idx[i]`, the reader-local indices) are modelled as unbounded
naturals: the code treats them as monotonic 64-bit counters and the
all-ones sentinel `std::numeric_limits<size_t>::max()` is kept as the
concrete constant `SENTINEL = 2^64 - 1`.  The subtractions the producer
performs (`write_idx - _min_read_idx_cache`) are executed by the code only
behind the explicit sentinel guard, and on every reachable state the cache
is at most `write_idx` (proved below, `Inv.cache_lt_write`), so natural
subtraction agrees with the unsigned machine subtraction there.  Where
overflow genuinely matters — the `next_power_of_two` doubling loop — the
machine semantics is modelled exactly, with multiplication reduced mod
`2^64` (`npotLoopFuel`).

Ghost (history) fields, clearly marked below, record the emplaced
sequence, each reader's subscribe-time start position and consumed values,
and per-slot construction/destruction counts.  They are standard auxiliary
variables: no operation's control flow or visible result depends on them.
-/

namespace LockfreeQueues

/-- Number of values of the C++ `size_t` (the code targets 64-bit). -/
def USIZE : Nat := 2 ^ 64

/-- `std::numeric_limits<size_t>::max()`, the sentinel marking an
unsubscribed reader slot and an uninitialized producer cache. -/
def SENTINEL : Nat := USIZE - 1

/-- `is_power_of_two` from `utilities.h`:
`(n != 0) && ((n & (n - 1)) == 0)`. -/
def is_power_of_two (n : Nat) : Bool :=
  n != 0 && (n &&& (n - 1)) == 0

/-- Loop body of `next_power_of_two` from `utilities.h`
(`power = 1; while (power < v) power = power * 2; return power;`),
idealized over unbounded naturals (no 64-bit wrap; the exact machine
loop is `npotLoopFuel` below).  `power` starts at 1 and doubles, so it is
never 0; the `power = 0` branch is unreachable from `next_power_of_two`
and exists only to make the recursion well-founded. -/
def npotGo (v power : Nat) : Nat :=
  if power = 0 then 0
  else if power < v then npotGo v (power * 2)
  else power
termination_by v - power
decreasing_by
  simp_wf
  omega

/-- `next_power_of_two` from `utilities.h`, idealized over unbounded
naturals.  Agrees with the compiled 64-bit loop for every `v ≤ 2^63`
(see `npotLoopFuel_eq_npotGo`); for larger `v` the machine loop never
terminates (see `npotLoopFuel_overflow_none`). -/
def next_power_of_two (v : Nat) : Nat := npotGo v 1

/-- The `next_power_of_two` loop exactly as the machine executes it on
64-bit `size_t`: the doubling is reduced mod `2^64`, and the recursion is
fuelled, `none` meaning the loop has not finished within `fuel`
iterations. -/
def npotLoopFuel (v : Nat) : Nat → Nat → Option Nat
  | 0, _ => none
  | fuel + 1, power =>
    if power < v then npotLoopFuel v fuel ((power * 2) % USIZE)
    else some power

/-- The machine `next_power_of_two` loop terminates on input `v`:
some finite number of iterations suffices. -/
def npotMachineTerminates (v : Nat) : Prop :=
  ∃ fuel r, npotLoopFuel v fuel 1 = some r

/-- Per-reader block `ReaderCache` of `SPBroadcastQueue`, holding the
reader's true progress `read_local_idx` and its snapshot
`write_idx_cache` of the producer index.  `start_idx` and `consumed` are
ghost fields: the position the reader started from at subscribe time and
the values its `front`/`pop` loop has returned so far. -/
structure ReaderCache (α : Type) where
  read_local_idx : Nat
  write_idx_cache : Nat
  start_idx : Nat
  consumed : List α
deriving Repr

/-- `ReaderCache::reset()`: both indices to the sentinel
(ghost fields cleared as well). -/
def resetCache (α : Type) : ReaderCache α :=
  { read_local_idx := SENTINEL, write_idx_cache := SENTINEL
    start_idx := SENTINEL, consumed := [] }

/-- The state of a `SPBroadcastQueue<T, MAX_READERS>` with element type
`α` and `MAX_READERS = R`.  `slots k` is the content of ring slot `k`
(`none` = no constructed object there); `hist`, `ctor_count` and
`dtor_count` are ghost fields recording the emplaced sequence and the
per-slot construction / overwrite-destruction counts. -/
structure Queue (α : Type) (R : Nat) where
  capacity : Nat
  capacity_minus_one : Nat
  items_per_batch_minus_one : Nat
  write_idx : Nat
  min_read_idx_cache : Nat
  read_idx : Fin R → Nat
  reader_cache : Fin R → ReaderCache α
  slots : Nat → Option α
  hist : List α
  ctor_count : Nat → Nat
  dtor_count : Nat → Nat

/-- Construction errors.  `invalidCapacity` is the
`"items per batch must be power of 2"` runtime error; `divByZero` is the
guarded image of the unguarded `_capacity / reader_batch_size` division
(C++ undefined behaviour when `reader_batch_size == 0`, cf. claim C10). -/
inductive ConstructError
  | invalidCapacity
  | divByZero
deriving DecidableEq, Repr

/-- The constructor of `SPBroadcastQueue`: round the requested capacity
up to a power of two with a floor of 16, derive the masks, check that
`capacity / reader_batch_size` is a power of two, and initialize every
index to its sentinel.  The division is guarded (the C++ code divides
unconditionally, which is undefined behaviour for `reader_batch_size = 0`);
`_items_per_batch_minus_one` is computed with exact 64-bit wraparound
(`(x - 1) + 1` reduced mod `2^64`), matching the unsigned machine
arithmetic also when `capacity / reader_batch_size = 0`.  The allocation
itself is not modelled: on error no queue value exists. -/
def mkQueue (α : Type) (R : Nat) (requested reader_batch_size : Nat) :
    Except ConstructError (Queue α R) :=
  let cap := max 16 (next_power_of_two requested)
  if reader_batch_size = 0 then Except.error ConstructError.divByZero
  else
    let ipb_m1 := (cap / reader_batch_size + (USIZE - 1)) % USIZE
    if is_power_of_two ((ipb_m1 + 1) % USIZE) = false then
      Except.error ConstructError.invalidCapacity
    else
      Except.ok
        { capacity := cap
          capacity_minus_one := cap - 1
          items_per_batch_minus_one := ipb_m1
          write_idx := 0
          min_read_idx_cache := SENTINEL
          read_idx := fun _ => SENTINEL
          reader_cache := fun _ => resetCache α
          slots := fun _ => none
          hist := []
          ctor_count := fun _ => 0
          dtor_count := fun _ => 0 }

variable {α : Type} {R : Nat}

/-- The scan of `subscribe()`:
`std::find_if(std::begin(_read_idx), std::end(_read_idx), …)` looking for
the first entry equal to the sentinel, starting at position `k`.  The
first argument is structural fuel (`R - k` remaining table entries),
making the definition computable by kernel reduction. -/
def findFreeAux (q : Queue α R) : Nat → Nat → Option (Fin R)
  | 0, _ => none
  | fuel + 1, k =>
    if h : k < R then
      if q.read_idx ⟨k, h⟩ = SENTINEL then some ⟨k, h⟩
      else findFreeAux q fuel (k + 1)
    else none

/-- The `subscribe()` scan over the whole reader table. -/
def findFreeFrom (q : Queue α R) (k : Nat) : Option (Fin R) :=
  findFreeAux q (R - k) k

/-- `subscribe()`.  Returns the allocated reader id (or `none` where the
C++ throws `"Max consumers reached"`, in which case the state is
unchanged) together with the post state.  The spin lock serializing
subscribe/unsubscribe needs no model in the sequential semantics. -/
def subscribe (q : Queue α R) : Option (Fin R) × Queue α R :=
  match findFreeFrom q 0 with
  | none => (none, q)
  | some i =>
    let write_idx := q.write_idx
    let last_write_idx := if write_idx = 0 then 0 else write_idx - 1
    (some i,
      { q with
        read_idx := Function.update q.read_idx i last_write_idx
        reader_cache := Function.update q.reader_cache i
          { read_local_idx := last_write_idx
            write_idx_cache := last_write_idx
            start_idx := last_write_idx
            consumed := [] } })

/-- `unsubscribe(reader_id)`: reset the reader cache and publish the
sentinel into `_read_idx[reader_id]`. -/
def unsubscribe (q : Queue α R) (i : Fin R) : Queue α R :=
  { q with
    reader_cache := Function.update q.reader_cache i (resetCache α)
    read_idx := Function.update q.read_idx i SENTINEL }

/-- The min-scan of `try_emplace`: `_read_idx[0]`, then `std::min` over
the remaining entries.  `MAX_READERS` is statically nonzero in the C++
(`static_assert(MAX_READERS != 0)`); the `[]` branch is that unreachable
degenerate case. -/
def scanMinRead (q : Queue α R) : Nat :=
  match (List.finRange R).map q.read_idx with
  | [] => SENTINEL
  | x :: xs => xs.foldl min x

/-- The publication part of `try_emplace` (steps after the fullness check
passed): pick slot `write_idx & _capacity_minus_one`, destroy the
previous occupant when the ring has wrapped (`_write_idx >= _capacity`,
only relevant for non-trivially-destructible `T`), construct the new
element in place, bump `write_idx`.  Ghost fields record the construction,
the overwrite destruction and the emplaced value. -/
def emplaceSlot (q : Queue α R) (v : α) : Queue α R :=
  let write_idx := q.write_idx
  let k := write_idx &&& q.capacity_minus_one
  let q1 :=
    if q.capacity ≤ write_idx then
      { q with dtor_count := fun j => if j = k then q.dtor_count j + 1 else q.dtor_count j }
    else q
  { q1 with
    slots := fun j => if j = k then some v else q1.slots j
    ctor_count := fun j => if j = k then q1.ctor_count j + 1 else q1.ctor_count j
    hist := q1.hist ++ [v]
    write_idx := write_idx + 1 }

/-- `try_emplace(args…)`.  If the producer cache is the sentinel or
indicates fullness, rescan `_read_idx`; if the fresh minimum is still the
sentinel or still indicates fullness return `false`, otherwise publish
one element.  The subtraction `write_idx - _min_read_idx_cache` is the
unsigned machine subtraction; it is consulted only behind the sentinel
guard, and on every reachable state the (non-sentinel) cache is at most
`write_idx` (`Inv.cache_lt_write` below), where it coincides with natural
subtraction as written here. -/
def try_emplace (q : Queue α R) (v : α) : Bool × Queue α R :=
  let write_idx := q.write_idx
  if q.min_read_idx_cache = SENTINEL ∨ write_idx - q.min_read_idx_cache = q.capacity then
    let m := scanMinRead q
    if m = SENTINEL ∨ write_idx - m = q.capacity then
      (false, { q with min_read_idx_cache := m })
    else
      (true, emplaceSlot { q with min_read_idx_cache := m } v)
  else
    (true, emplaceSlot q v)

/-- `front(reader_id)`.  Returns the slot offset the returned pointer
refers to (`&_slots[read_local_idx & _capacity_minus_one]` is modelled by
the offset `read_local_idx & _capacity_minus_one`), or `none` for the
C++ `nullptr`, together with the post state (the only mutation is the
reader's `write_idx_cache` refresh). -/
def front (q : Queue α R) (i : Fin R) : Option Nat × Queue α R :=
  let rc := q.reader_cache i
  if rc.read_local_idx = rc.write_idx_cache then
    let rc' := { rc with write_idx_cache := q.write_idx }
    let q' := { q with reader_cache := Function.update q.reader_cache i rc' }
    if rc'.read_local_idx = rc'.write_idx_cache then (none, q')
    else (some (rc'.read_local_idx &&& q.capacity_minus_one), q')
  else
    (some (rc.read_local_idx &&& q.capacity_minus_one), q)

/-- The value the pointer returned by `front` refers to. -/
def frontVal (q : Queue α R) (i : Fin R) : Option α :=
  ((front q i).1).bind q.slots

/-- `pop(reader_id)`: advance `read_local_idx` and publish it into
`_read_idx[reader_id]` exactly when the new value crosses a batch
boundary (`read_local_idx & _items_per_batch_minus_one == 0`).  The ghost
`consumed` list records the value the preceding `front` handed out
(the content of slot `read_local_idx & _capacity_minus_one`). -/
def pop (q : Queue α R) (i : Fin R) : Queue α R :=
  let rc := q.reader_cache i
  let consumed' := rc.consumed ++ (q.slots (rc.read_local_idx &&& q.capacity_minus_one)).toList
  let local' := rc.read_local_idx + 1
  let rc' := { rc with read_local_idx := local', consumed := consumed' }
  let q' := { q with reader_cache := Function.update q.reader_cache i rc' }
  if local' &&& q.items_per_batch_minus_one = 0 then
    { q' with read_idx := Function.update q.read_idx i local' }
  else q'

/-- The destructor sweep `~SPBroadcastQueue`: with
`n = min(write_idx, capacity)`, destroy `_slots[0..n)`.  Returns the
final per-slot destruction counts (overwrite destructions plus the
sweep). -/
def destroySweep (q : Queue α R) : Nat → Nat :=
  fun k => q.dtor_count k + (if k < min q.write_idx q.capacity then 1 else 0)

/-- The minimum published read index over the live (non-sentinel)
readers, `SENTINEL` when no reader is live.  This is the quantity the
specification's backpressure rule speaks about. -/
def minLiveRead (q : Queue α R) : Nat :=
  (((List.finRange R).map q.read_idx).filter (fun x => x != SENTINEL)).foldl min SENTINEL

/-- One atomic operation of the sequential semantics.  `pop` carries the
documented precondition "the most recent `front(id)` returned non-null":
after such a `front` (and before the matching `pop`) the reader's local
index is strictly below its refreshed `write_idx_cache`, which is the
guard used here; unsubscribed readers (both indices at the sentinel)
never satisfy it. -/
inductive Step : Queue α R → Queue α R → Prop where
  | stepSubscribe (q : Queue α R) : Step q (subscribe q).2
  | stepUnsubscribe (q : Queue α R) (i : Fin R) : Step q (unsubscribe q i)
  | stepTryEmplace (q : Queue α R) (v : α) : Step q (try_emplace q v).2
  | stepFront (q : Queue α R) (i : Fin R) : Step q (front q i).2
  | stepPop (q : Queue α R) (i : Fin R)
      (hlive : q.read_idx i ≠ SENTINEL)
      (hready : (q.reader_cache i).read_local_idx < (q.reader_cache i).write_idx_cache) :
      Step q (pop q i)

/-- States reachable from a successful construction by any sequence of
operations. -/
inductive Reachable : Queue α R → Prop where
  | init (requested batch : Nat) (q : Queue α R)
      (h : mkQueue α R requested batch = Except.ok q) : Reachable q
  | step (q q' : Queue α R) (hq : Reachable q) (hs : Step q q') : Reachable q'

/-- The inductive invariant of the sequential semantics.  Liveness of a
reader slot means its published `read_idx` differs from the sentinel;
every clause about a reader is conditioned on it.  The clauses about
`min_read_idx_cache` say the producer's private cache is a genuine
lower bound for every live reader and never more than `capacity` behind
`write_idx`; the `slots` clauses say the last `min(write_idx, capacity)`
emplaced values are still in their ring slots and all other slots hold
no object; the ghost clauses tie the construction/destruction counters
and each reader's consumed list to `write_idx` and the emplaced
history. -/
structure Inv (q : Queue α R) : Prop where
  cap_pos : 0 < q.capacity
  cap_pow : ∃ m, q.capacity = 2 ^ m
  mask_eq : q.capacity_minus_one = q.capacity - 1
  hist_len : q.hist.length = q.write_idx
  read_le_local : ∀ i, q.read_idx i ≠ SENTINEL →
    q.read_idx i ≤ (q.reader_cache i).read_local_idx
  local_le_wcache : ∀ i, q.read_idx i ≠ SENTINEL →
    (q.reader_cache i).read_local_idx ≤ (q.reader_cache i).write_idx_cache
  wcache_le_write : ∀ i, q.read_idx i ≠ SENTINEL →
    (q.reader_cache i).write_idx_cache ≤ q.write_idx
  slack_le_cap : ∀ i, q.read_idx i ≠ SENTINEL →
    q.write_idx - q.read_idx i ≤ q.capacity
  cache_lt_write : q.min_read_idx_cache ≠ SENTINEL →
    q.min_read_idx_cache < q.write_idx
  cache_slack : q.min_read_idx_cache ≠ SENTINEL →
    q.write_idx - q.min_read_idx_cache ≤ q.capacity
  cache_le_read : q.min_read_idx_cache ≠ SENTINEL →
    ∀ i, q.read_idx i ≠ SENTINEL → q.min_read_idx_cache ≤ q.read_idx i
  slots_recent : ∀ p, p < q.write_idx → q.write_idx ≤ p + q.capacity →
    q.slots (p % q.capacity) = q.hist[p]?
  slots_empty : ∀ k, min q.write_idx q.capacity ≤ k → q.slots k = none
  ctor_dtor_lo : ∀ k, k < min q.write_idx q.capacity →
    q.ctor_count k = q.dtor_count k + 1
  ctor_dtor_hi : ∀ k, min q.write_idx q.capacity ≤ k → k < q.capacity →
    q.ctor_count k = q.dtor_count k
  ctor_outside : ∀ k, q.capacity ≤ k → q.ctor_count k = 0
  dtor_outside : ∀ k, q.capacity ≤ k → q.dtor_count k = 0
  ctor_sum : ∑ k ∈ Finset.range q.capacity, q.ctor_count k = q.write_idx
  dtor_sum : ∑ k ∈ Finset.range q.capacity, q.dtor_count k =
    q.write_idx - min q.write_idx q.capacity
  start_le_local : ∀ i, q.read_idx i ≠ SENTINEL →
    (q.reader_cache i).start_idx ≤ (q.reader_cache i).read_local_idx
  consumed_eq : ∀ i, q.read_idx i ≠ SENTINEL →
    (q.reader_cache i).consumed =
      (q.hist.drop (q.reader_cache i).start_idx).take
        ((q.reader_cache i).read_local_idx - (q.reader_cache i).start_idx)

/-- A concrete queue state: exactly what `mkQueue Nat 2 16 4` builds
(capacity 16, two reader slots, batches of four). -/
def qInit : Queue Nat 2 :=
  { capacity := 16
    capacity_minus_one := 15
    items_per_batch_minus_one := 3
    write_idx := 0
    min_read_idx_cache := SENTINEL
    read_idx := fun _ => SENTINEL
    reader_cache := fun _ => resetCache Nat
    slots := fun _ => none
    hist := []
    ctor_count := fun _ => 0
    dtor_count := fun _ => 0 }

/-- `qInit` after reader 0 subscribed. -/
def qc1 : Queue Nat 2 := (subscribe qInit).2

/-- `qc1` after emplacing the value 10. -/
def qc2 : Queue Nat 2 := (try_emplace qc1 10).2

/-- `qc2` after emplacing the value 20. -/
def qc3 : Queue Nat 2 := (try_emplace qc2 20).2

/-- `qc3` after emplacing the value 30 (`write_idx = 3`). -/
def qc4 : Queue Nat 2 := (try_emplace qc3 30).2

/-- `qc4` after a second reader subscribed (it gets id 1 and starting
position `write_idx - 1 = 2`). -/
def qc5 : Queue Nat 2 := (subscribe qc4).2

/-- `qc5` after reader 1 called `front` (which returned slot 2, holding
the value 30 emplaced before reader 1 subscribed). -/
def qc6 : Queue Nat 2 := (front qc5 1).2

/-- `qc6` after reader 1 called `pop`: its consumed sequence is `[30]`. -/
def qc7 : Queue Nat 2 := pop qc6 1

/-- A one-reader queue state whose single reader slot is occupied
(`read_idx 0 = 0`), used to exercise the `subscribe` failure path. -/
def qFull : Queue Nat 1 :=
  { capacity := 16
    capacity_minus_one := 15
    items_per_batch_minus_one := 3
    write_idx := 5
    min_read_idx_cache := 0
    read_idx := fun _ => 0
    reader_cache := fun _ =>
      { read_local_idx := 0, write_idx_cache := 0, start_idx := 0, consumed := [] }
    slots := fun _ => none
    hist := []
    ctor_count := fun _ => 0
    dtor_count := fun _ => 0 }

lemma sentinel_pos : 0 < SENTINEL := by
  simp [SENTINEL, USIZE]

lemma foldl_min_le_init (xs : List Nat) (x : Nat) : xs.foldl min x ≤ x := by
  induction xs generalizing x with
  | nil => exact Nat.le_refl x
  | cons y ys ih => exact Nat.le_trans (ih (min x y)) (min_le_left x y)

lemma foldl_min_le_of_mem (xs : List Nat) (x : Nat) {y : Nat} (h : y ∈ xs) :
    xs.foldl min x ≤ y := by
  induction xs generalizing x with
  | nil => cases h
  | cons z zs ih =>
    rcases List.mem_cons.mp h with rfl | hy
    · exact Nat.le_trans (foldl_min_le_init zs (min x y)) (min_le_right x y)
    · exact ih _ hy

lemma foldl_min_eq_init_or_mem (xs : List Nat) (x : Nat) :
    xs.foldl min x = x ∨ xs.foldl min x ∈ xs := by
  induction xs generalizing x with
  | nil => exact Or.inl rfl
  | cons y ys ih =>
    simp only [List.foldl_cons]
    rcases ih (min x y) with h | h
    · rcases Nat.le_total x y with hxy | hxy
      · left
        rw [h]
        omega
      · right
        rw [h]
        have hm : min x y = y := by omega
        rw [hm]
        exact List.mem_cons_self y ys
    · exact Or.inr (List.mem_cons_of_mem y h)

lemma foldl_min_filter_sentinel (xs : List Nat) (acc : Nat) (hacc : acc ≤ SENTINEL) :
    (xs.filter (fun y => y != SENTINEL)).foldl min acc = xs.foldl min acc := by
  induction xs generalizing acc with
  | nil => rfl
  | cons y ys ih =>
    by_cases hy : y = SENTINEL
    · subst hy
      have hf : (SENTINEL :: ys).filter (fun y => y != SENTINEL) =
          ys.filter (fun y => y != SENTINEL) := by simp
      rw [hf, List.foldl_cons]
      have hm : min acc SENTINEL = acc := by omega
      rw [hm, ih acc hacc]
    · have hb : (y != SENTINEL) = true := by simpa using hy
      simp only [List.filter_cons, hb, if_true, List.foldl_cons]
      exact ih (min acc y) (Nat.le_trans (min_le_left acc y) hacc)

lemma foldl_min_cons_sentinel (x : Nat) (xs : List Nat) (hx : x ≤ SENTINEL) :
    (x :: xs).foldl min SENTINEL = xs.foldl min x := by
  simp only [List.foldl_cons]
  have hm : min SENTINEL x = x := by omega
  rw [hm]

lemma scanMinRead_eq_cons (q : Queue α R) {x : Nat} {xs : List Nat}
    (hE : (List.finRange R).map q.read_idx = x :: xs) :
    scanMinRead q = xs.foldl min x := by
  unfold scanMinRead
  rw [hE]

lemma scanMinRead_eq_nil (q : Queue α R)
    (hE : (List.finRange R).map q.read_idx = []) :
    scanMinRead q = SENTINEL := by
  unfold scanMinRead
  rw [hE]

lemma scanMinRead_le_entry (q : Queue α R) {y : Nat}
    (h : y ∈ (List.finRange R).map q.read_idx) : scanMinRead q ≤ y := by
  cases hE : (List.finRange R).map q.read_idx with
  | nil => rw [hE] at h; cases h
  | cons x xs =>
    rw [scanMinRead_eq_cons q hE]
    rw [hE] at h
    rcases List.mem_cons.mp h with rfl | hy
    · exact foldl_min_le_init xs y
    · exact foldl_min_le_of_mem xs x hy

lemma scanMinRead_le_read (q : Queue α R) (j : Fin R) :
    scanMinRead q ≤ q.read_idx j :=
  scanMinRead_le_entry q (List.mem_map_of_mem q.read_idx (List.mem_finRange j))

lemma scanMinRead_mem (q : Queue α R) (hne : scanMinRead q ≠ SENTINEL) :
    ∃ j : Fin R, scanMinRead q = q.read_idx j := by
  cases hE : (List.finRange R).map q.read_idx with
  | nil => exact absurd (scanMinRead_eq_nil q hE) hne
  | cons x xs =>
    rw [scanMinRead_eq_cons q hE]
    have hmem : xs.foldl min x ∈ x :: xs := by
      rcases foldl_min_eq_init_or_mem xs x with h | h
      · rw [h]; exact List.mem_cons_self x xs
      · exact List.mem_cons_of_mem x h
    rw [← hE] at hmem
    rcases List.mem_map.mp hmem with ⟨j, _, hj⟩
    exact ⟨j, hj.symm⟩

lemma minLiveRead_eq_scanMinRead (q : Queue α R) (hR : 0 < R)
    (hle : ∀ j : Fin R, q.read_idx j ≤ SENTINEL) :
    minLiveRead q = scanMinRead q := by
  cases hE : (List.finRange R).map q.read_idx with
  | nil =>
    have hlen : ((List.finRange R).map q.read_idx).length = R := by simp
    rw [hE] at hlen
    simp at hlen
    omega
  | cons x xs =>
    have hle' : ∀ y ∈ (List.finRange R).map q.read_idx, y ≤ SENTINEL := by
      intro y hy
      rcases List.mem_map.mp hy with ⟨j, _, hj⟩
      exact hj ▸ hle j
    rw [hE] at hle'
    rw [scanMinRead_eq_cons q hE]
    unfold minLiveRead
    rw [hE]
    rw [foldl_min_filter_sentinel _ _ (Nat.le_refl SENTINEL)]
    exact foldl_min_cons_sentinel x xs (hle' x (List.mem_cons_self x xs))

lemma minLiveRead_le_read (q : Queue α R) (j : Fin R)
    (hj : q.read_idx j ≠ SENTINEL) : minLiveRead q ≤ q.read_idx j := by
  unfold minLiveRead
  apply foldl_min_le_of_mem
  apply List.mem_filter.mpr
  constructor
  · exact List.mem_map_of_mem q.read_idx (List.mem_finRange j)
  · simpa using hj

lemma and_mask_eq_mod (q : Queue α R) (hpow : ∃ m, q.capacity = 2 ^ m)
    (hmask : q.capacity_minus_one = q.capacity - 1) (n : Nat) :
    n &&& q.capacity_minus_one = n % q.capacity := by
  obtain ⟨m, hm⟩ := hpow
  rw [hmask, hm]
  exact Nat.and_pow_two_sub_one_eq_mod n m

lemma findFreeAux_none_sentinel (q : Queue α R) :
    ∀ fuel k, R ≤ fuel + k → findFreeAux q fuel k = none →
      ∀ j : Fin R, k ≤ j.val → q.read_idx j ≠ SENTINEL := by
  intro fuel
  induction fuel with
  | zero =>
    intro k hRk _ j hkj hcon
    have hj := j.isLt
    omega
  | succ fuel ih =>
    intro k hRk hnone j hkj
    unfold findFreeAux at hnone
    by_cases hk : k < R
    · rw [dif_pos hk] at hnone
      by_cases hs : q.read_idx ⟨k, hk⟩ = SENTINEL
      · rw [if_pos hs] at hnone; cases hnone
      · rw [if_neg hs] at hnone
        rcases Nat.eq_or_lt_of_le hkj with heq | hlt
        · intro hcon
          apply hs
          have hjk : j = ⟨k, hk⟩ := Fin.ext heq.symm
          rw [← hjk]
          exact hcon
        · exact ih (k + 1) (by omega) hnone j hlt
    · intro hcon
      have hj := j.isLt
      omega

lemma findFreeAux_some_least (q : Queue α R) :
    ∀ fuel k i, findFreeAux q fuel k = some i →
      k ≤ i.val ∧ q.read_idx i = SENTINEL ∧
        ∀ j : Fin R, k ≤ j.val → j.val < i.val → q.read_idx j ≠ SENTINEL := by
  intro fuel
  induction fuel with
  | zero => intro k i h; cases h
  | succ fuel ih =>
    intro k i h
    unfold findFreeAux at h
    by_cases hk : k < R
    · rw [dif_pos hk] at h
      by_cases hs : q.read_idx ⟨k, hk⟩ = SENTINEL
      · rw [if_pos hs] at h
        have hi : i = ⟨k, hk⟩ := (Option.some_inj.mp h).symm
        subst hi
        refine ⟨Nat.le_refl k, hs, ?_⟩
        intro j hkj hjk hcon
        have hv : (⟨k, hk⟩ : Fin R).val = k := rfl
        omega
      · rw [if_neg hs] at h
        obtain ⟨h1, h2, h3⟩ := ih (k + 1) i h
        refine ⟨by omega, h2, ?_⟩
        intro j hkj hjk
        rcases Nat.eq_or_lt_of_le hkj with heq | hlt
        · have hjeq : j = ⟨k, hk⟩ := Fin.ext heq.symm
          rw [hjeq]
          exact hs
        · exact h3 j hlt hjk
    · rw [dif_neg hk] at h
      cases h

lemma findFreeFrom_none_iff (q : Queue α R) :
    findFreeFrom q 0 = none ↔ ∀ j : Fin R, q.read_idx j ≠ SENTINEL := by
  constructor
  · intro h j
    exact findFreeAux_none_sentinel q R 0 (by omega) (by simpa [findFreeFrom] using h) j
      (Nat.zero_le _)
  · intro hall
    cases hF : findFreeFrom q 0 with
    | none => rfl
    | some i =>
      obtain ⟨_, h2, _⟩ := findFreeAux_some_least q (R - 0) 0 i (by simpa [findFreeFrom] using hF)
      exact absurd h2 (hall i)

lemma findFreeFrom_some_least (q : Queue α R) (i : Fin R)
    (h : findFreeFrom q 0 = some i) :
    q.read_idx i = SENTINEL ∧ ∀ j : Fin R, j.val < i.val → q.read_idx j ≠ SENTINEL := by
  obtain ⟨_, h2, h3⟩ := findFreeAux_some_least q (R - 0) 0 i (by simpa [findFreeFrom] using h)
  exact ⟨h2, fun j hj => h3 j (Nat.zero_le _) hj⟩

lemma npotGo_ge_aux : ∀ n v p, 0 < p → v - p ≤ n → v ≤ npotGo v p := by
  intro n
  induction n with
  | zero =>
    intro v p hp hvp
    rw [npotGo.eq_def]
    rw [if_neg (by omega)]
    rw [if_neg (by omega)]
    omega
  | succ n ih =>
    intro v p hp hvp
    rw [npotGo.eq_def, if_neg (by omega)]
    by_cases hlt : p < v
    · rw [if_pos hlt]
      exact ih v (p * 2) (by omega) (by omega)
    · rw [if_neg hlt]
      omega

lemma npot_ge (v : Nat) : v ≤ next_power_of_two v :=
  npotGo_ge_aux v v 1 Nat.one_pos (by omega)

lemma npotGo_pow_aux : ∀ n v j, v - 2 ^ j ≤ n → ∃ k, npotGo v (2 ^ j) = 2 ^ k := by
  intro n
  induction n with
  | zero =>
    intro v j hvp
    rw [npotGo.eq_def]
    rw [if_neg (by positivity)]
    rw [if_neg (by omega)]
    exact ⟨j, rfl⟩
  | succ n ih =>
    intro v j hvp
    rw [npotGo.eq_def, if_neg (by positivity)]
    by_cases hlt : 2 ^ j < v
    · rw [if_pos hlt]
      have h2 : 2 ^ j * 2 = 2 ^ (j + 1) := by rw [Nat.pow_succ]
      rw [h2]
      apply ih v (j + 1)
      have : 0 < 2 ^ j := Nat.pos_pow_of_pos j (by omega)
      have : 2 ^ (j + 1) = 2 ^ j * 2 := (Nat.pow_succ 2 j)
      omega
    · rw [if_neg hlt]
      exact ⟨j, rfl⟩

lemma npot_pow (v : Nat) : ∃ k, next_power_of_two v = 2 ^ k := by
  have h : (1 : Nat) = 2 ^ 0 := rfl
  unfold next_power_of_two
  rw [h]
  exact npotGo_pow_aux v v 0 (by omega)

lemma npotGo_least_aux : ∀ n v j m, v - 2 ^ j ≤ n → v ≤ 2 ^ m → j ≤ m →
    npotGo v (2 ^ j) ≤ 2 ^ m := by
  intro n
  induction n with
  | zero =>
    intro v j m hvp hvm hjm
    rw [npotGo.eq_def, if_neg (by positivity), if_neg (by omega)]
    exact Nat.pow_le_pow_right (by omega) hjm
  | succ n ih =>
    intro v j m hvp hvm hjm
    rw [npotGo.eq_def, if_neg (by positivity)]
    by_cases hlt : 2 ^ j < v
    · rw [if_pos hlt]
      have h2 : 2 ^ j * 2 = 2 ^ (j + 1) := by rw [Nat.pow_succ]
      rw [h2]
      have hjm' : j + 1 ≤ m := by
        by_contra hcon
        have hj : m ≤ j := by omega
        have : 2 ^ m ≤ 2 ^ j := Nat.pow_le_pow_right (by omega) hj
        omega
      apply ih v (j + 1) m _ hvm hjm'
      have h1 : 0 < 2 ^ j := Nat.pos_pow_of_pos j (by omega)
      omega
    · rw [if_neg hlt]
      exact Nat.pow_le_pow_right (by omega) hjm

lemma npot_least (v m : Nat) (h : v ≤ 2 ^ m) : next_power_of_two v ≤ 2 ^ m := by
  have h1 : (1 : Nat) = 2 ^ 0 := rfl
  unfold next_power_of_two
  rw [h1]
  exact npotGo_least_aux v v 0 m (by omega) h (Nat.zero_le m)

lemma npot_zero : next_power_of_two 0 = 1 := by
  unfold next_power_of_two
  rw [npotGo.eq_def]
  norm_num

lemma npotLoopFuel_zero_power (v : Nat) (hv : 0 < v) :
    ∀ fuel, npotLoopFuel v fuel 0 = none := by
  intro fuel
  induction fuel with
  | zero => rfl
  | succ fuel ih =>
    unfold npotLoopFuel
    rw [if_pos hv]
    simpa using ih

lemma npotLoopFuel_overflow (v : Nat) (hv : 2 ^ 63 < v) :
    ∀ fuel j, j ≤ 63 → npotLoopFuel v fuel (2 ^ j) = none := by
  intro fuel
  induction fuel with
  | zero => intro j _; rfl
  | succ fuel ih =>
    intro j hj
    unfold npotLoopFuel
    have hlt : 2 ^ j < v := by
      have : (2 : Nat) ^ j ≤ 2 ^ 63 := Nat.pow_le_pow_right (by omega) hj
      omega
    rw [if_pos hlt]
    by_cases hj63 : j = 63
    · subst hj63
      have hU : (2 ^ 63 * 2) % USIZE = 0 := by
        have : (2 : Nat) ^ 63 * 2 = USIZE := by norm_num [USIZE]
        rw [this]
        exact Nat.mod_self USIZE
      rw [hU]
      exact npotLoopFuel_zero_power v (by omega) fuel
    · have h2 : 2 ^ j * 2 = 2 ^ (j + 1) := by rw [Nat.pow_succ]
      have hmod : (2 ^ j * 2) % USIZE = 2 ^ (j + 1) := by
        rw [h2]
        apply Nat.mod_eq_of_lt
        have : (2 : Nat) ^ (j + 1) ≤ 2 ^ 63 := Nat.pow_le_pow_right (by omega) (by omega)
        have hU : (2 : Nat) ^ 63 < USIZE := by norm_num [USIZE]
        omega
      rw [hmod]
      exact ih (j + 1) (by omega)

lemma npot_machine_diverges (v : Nat) (hv : 2 ^ 63 < v) : ¬ npotMachineTerminates v := by
  rintro ⟨fuel, r, hr⟩
  have h1 : (1 : Nat) = 2 ^ 0 := rfl
  rw [h1] at hr
  rw [npotLoopFuel_overflow v hv fuel 0 (by omega)] at hr
  cases hr

lemma npotLoopFuel_agrees (v : Nat) (hv : v ≤ 2 ^ 63) :
    ∀ fuel j, j ≤ 63 → 64 - j ≤ fuel →
      npotLoopFuel v fuel (2 ^ j) = some (npotGo v (2 ^ j)) := by
  intro fuel
  induction fuel with
  | zero => intro j hj hf; omega
  | succ fuel ih =>
    intro j hj hf
    unfold npotLoopFuel
    by_cases hlt : 2 ^ j < v
    · rw [if_pos hlt]
      have hj63 : j < 63 := by
        by_contra hcon
        have hj' : j = 63 := by omega
        subst hj'
        have : v ≤ 2 ^ 63 := hv
        omega
      have h2 : 2 ^ j * 2 = 2 ^ (j + 1) := by rw [Nat.pow_succ]
      have hmod : (2 ^ j * 2) % USIZE = 2 ^ (j + 1) := by
        rw [h2]
        apply Nat.mod_eq_of_lt
        have : (2 : Nat) ^ (j + 1) ≤ 2 ^ 63 := Nat.pow_le_pow_right (by omega) (by omega)
        have hU : (2 : Nat) ^ 63 < USIZE := by norm_num [USIZE]
        omega
      rw [hmod]
      rw [ih (j + 1) (by omega) (by omega)]
      have hgo : npotGo v (2 ^ j) = npotGo v (2 ^ (j + 1)) := by
        rw [npotGo.eq_def, if_neg (by positivity), if_pos hlt, h2]
      rw [hgo]
    · rw [if_neg hlt]
      rw [npotGo.eq_def, if_neg (by positivity), if_neg hlt]

lemma npot_machine_eval (v : Nat) (hv : v ≤ 2 ^ 63) :
    npotLoopFuel v 64 1 = some (next_power_of_two v) := by
  have h1 : (1 : Nat) = 2 ^ 0 := rfl
  unfold next_power_of_two
  rw [h1]
  exact npotLoopFuel_agrees v hv 64 0 (by omega) (by omega)

lemma two_mul_eq_bit (m : Nat) : 2 * m = Nat.bit false m := by
  simp [Nat.bit]

lemma two_mul_add_one_eq_bit (m : Nat) : 2 * m + 1 = Nat.bit true m := by
  simp [Nat.bit]

lemma land_odd_pred (m : Nat) : (2 * m + 1) &&& (2 * m) = 2 * m := by
  rw [two_mul_add_one_eq_bit, two_mul_eq_bit, Nat.land_bit]
  simp [Nat.bit]

lemma land_double_pred (m : Nat) (hm : 0 < m) :
    (2 * m) &&& (2 * m - 1) = 2 * (m &&& (m - 1)) := by
  have h2 : 2 * m - 1 = Nat.bit true (m - 1) := by
    simp [Nat.bit]
    omega
  rw [h2, two_mul_eq_bit, Nat.land_bit]
  simp [Nat.bit]

lemma land_pred_eq_zero_iff :
    ∀ n, 0 < n → ((n &&& (n - 1) = 0) ↔ ∃ k, n = 2 ^ k) := by
  intro n
  induction n using Nat.strong_induction_on with
  | _ n ih =>
    intro hn
    rcases Nat.even_or_odd n with ⟨m, hm⟩ | ⟨m, hm⟩
    · have hm2 : n = 2 * m := by omega
      subst hm2
      have hmpos : 0 < m := by omega
      rw [land_double_pred m hmpos]
      constructor
      · intro h0
        have hz : m &&& (m - 1) = 0 := by omega
        obtain ⟨j, hj⟩ := (ih m (by omega) hmpos).mp hz
        refine ⟨j + 1, ?_⟩
        rw [hj, Nat.pow_succ]
        ring
      · rintro ⟨k, hk⟩
        have hk1 : 1 ≤ k := by
          by_contra hcon
          have hk0 : k = 0 := by omega
          subst hk0
          omega
        have hpow : 2 ^ ((k - 1) + 1) = 2 ^ (k - 1) * 2 := by rw [Nat.pow_succ]
        have hke : (k - 1) + 1 = k := by omega
        rw [hke] at hpow
        have hmk : m = 2 ^ (k - 1) := by omega
        have hz : m &&& (m - 1) = 0 := (ih m (by omega) hmpos).mpr ⟨k - 1, hmk⟩
        omega
    · subst hm
      have he : 2 * m + 1 - 1 = 2 * m := by omega
      rw [he, land_odd_pred m]
      constructor
      · intro h0
        have hm0 : m = 0 := by omega
        subst hm0
        exact ⟨0, rfl⟩
      · rintro ⟨k, hk⟩
        rcases Nat.eq_zero_or_pos k with hk0 | hkpos
        · subst hk0
          simp at hk
          omega
        · exfalso
          have hpow : 2 ^ ((k - 1) + 1) = 2 ^ (k - 1) * 2 := by rw [Nat.pow_succ]
          have hke : (k - 1) + 1 = k := by omega
          rw [hke] at hpow
          omega

lemma is_power_of_two_iff_code (n : Nat) :
    is_power_of_two n = true ↔ (n ≠ 0 ∧ n &&& (n - 1) = 0) := by
  simp [is_power_of_two]

lemma is_power_of_two_iff_pow (n : Nat) :
    is_power_of_two n = true ↔ ∃ k, n = 2 ^ k := by
  rw [is_power_of_two_iff_code]
  rcases Nat.eq_zero_or_pos n with h0 | hpos
  · subst h0
    constructor
    · rintro ⟨h, _⟩
      exact absurd rfl h
    · rintro ⟨k, hk⟩
      have hp : 0 < 2 ^ k := Nat.pos_pow_of_pos k (by omega)
      omega
  · rw [land_pred_eq_zero_iff n hpos]
    constructor
    · exact fun h => h.2
    · intro h
      exact ⟨by omega, h⟩

lemma effcap_pow (requested : Nat) :
    ∃ m, max 16 (next_power_of_two requested) = 2 ^ m := by
  obtain ⟨k, hk⟩ := npot_pow requested
  rcases Nat.le_total (next_power_of_two requested) 16 with h | h
  · refine ⟨4, ?_⟩
    have h16 : (16 : Nat) = 2 ^ 4 := by norm_num
    omega
  · refine ⟨k, ?_⟩
    omega

lemma front_snd (q : Queue α R) (i : Fin R) :
    (front q i).2 =
      if (q.reader_cache i).read_local_idx = (q.reader_cache i).write_idx_cache then
        { q with reader_cache := Function.update q.reader_cache i { read_local_idx := (q.reader_cache i).read_local_idx, write_idx_cache := q.write_idx, start_idx := (q.reader_cache i).start_idx, consumed := (q.reader_cache i).consumed } }
      else q := by
  unfold front
  by_cases h : (q.reader_cache i).read_local_idx = (q.reader_cache i).write_idx_cache
  · rw [if_pos h, if_pos h]
    dsimp only
    split <;> rfl
  · rw [if_neg h, if_neg h]

lemma front_fst (q : Queue α R) (i : Fin R) :
    (front q i).1 =
      if (q.reader_cache i).read_local_idx = (q.reader_cache i).write_idx_cache ∧
          (q.reader_cache i).read_local_idx = q.write_idx then none
      else some ((q.reader_cache i).read_local_idx &&& q.capacity_minus_one) := by
  by_cases h : (q.reader_cache i).read_local_idx = (q.reader_cache i).write_idx_cache
  · by_cases h2 : (q.reader_cache i).read_local_idx = q.write_idx
    · have h3 : (q.reader_cache i).write_idx_cache = q.write_idx := h.symm.trans h2
      simp [front, h, h2, h3]
    · have h3 : ¬ (q.reader_cache i).write_idx_cache = q.write_idx := fun hc => h2 (h.trans hc)
      simp [front, h, h2, h3]
  · simp [front, h]

lemma inv_init {requested batch : Nat} {q : Queue α R}
    (h : mkQueue α R requested batch = Except.ok q) : Inv q := by
  unfold mkQueue at h
  by_cases hb : batch = 0
  · rw [if_pos hb] at h
    cases h
  · rw [if_neg hb] at h
    dsimp only at h
    split at h
    · cases h
    · injection h with h
      subst h
      refine ⟨?_, effcap_pow requested, rfl, rfl,
        fun i hi => absurd rfl hi, fun i hi => absurd rfl hi,
        fun i hi => absurd rfl hi, fun i hi => absurd rfl hi,
        fun hc => absurd rfl hc, fun hc => absurd rfl hc,
        fun hc => absurd rfl hc,
        fun p hp _ => (Nat.not_lt_zero p hp).elim,
        fun k _ => rfl, ?_, fun k _ _ => rfl, fun k _ => rfl, fun k _ => rfl, ?_, ?_,
        fun i hi => absurd rfl hi, fun i hi => absurd rfl hi⟩
      · dsimp only
        omega
      · intro k hk
        simp at hk
      · simp
      · simp

lemma subscribe_eq_none (q : Queue α R) (hF : findFreeFrom q 0 = none) :
    subscribe q = (none, q) := by
  unfold subscribe
  rw [hF]

lemma subscribe_eq_some (q : Queue α R) (i : Fin R) (hF : findFreeFrom q 0 = some i) :
    subscribe q =
      (some i, { q with read_idx := Function.update q.read_idx i (if q.write_idx = 0 then 0 else q.write_idx - 1), reader_cache := Function.update q.reader_cache i { read_local_idx := (if q.write_idx = 0 then 0 else q.write_idx - 1), write_idx_cache := (if q.write_idx = 0 then 0 else q.write_idx - 1), start_idx := (if q.write_idx = 0 then 0 else q.write_idx - 1), consumed := [] } }) := by
  unfold subscribe
  rw [hF]

lemma pop_eq (q : Queue α R) (i : Fin R) :
    pop q i =
      if ((q.reader_cache i).read_local_idx + 1) &&& q.items_per_batch_minus_one = 0 then
        { q with reader_cache := Function.update q.reader_cache i { read_local_idx := (q.reader_cache i).read_local_idx + 1, write_idx_cache := (q.reader_cache i).write_idx_cache, start_idx := (q.reader_cache i).start_idx, consumed := (q.reader_cache i).consumed ++ (q.slots ((q.reader_cache i).read_local_idx &&& q.capacity_minus_one)).toList }, read_idx := Function.update q.read_idx i ((q.reader_cache i).read_local_idx + 1) }
      else
        { q with reader_cache := Function.update q.reader_cache i { read_local_idx := (q.reader_cache i).read_local_idx + 1, write_idx_cache := (q.reader_cache i).write_idx_cache, start_idx := (q.reader_cache i).start_idx, consumed := (q.reader_cache i).consumed ++ (q.slots ((q.reader_cache i).read_local_idx &&& q.capacity_minus_one)).toList } } := by
  rfl

lemma emplaceSlot_eq (q : Queue α R) (v : α) :
    emplaceSlot q v =
      { q with slots := fun j => if j = q.write_idx &&& q.capacity_minus_one then some v else q.slots j, ctor_count := fun j => if j = q.write_idx &&& q.capacity_minus_one then q.ctor_count j + 1 else q.ctor_count j, dtor_count := fun j => if q.capacity ≤ q.write_idx ∧ j = q.write_idx &&& q.capacity_minus_one then q.dtor_count j + 1 else q.dtor_count j, hist := q.hist ++ [v], write_idx := q.write_idx + 1 } := by
  unfold emplaceSlot
  dsimp only
  by_cases hc : q.capacity ≤ q.write_idx
  · rw [if_pos hc]
    congr 1
    funext j
    simp [hc]
  · rw [if_neg hc]
    congr 1
    funext j
    simp [hc]

lemma try_emplace_entry_pass (q : Queue α R) (v : α)
    (h1 : q.min_read_idx_cache ≠ SENTINEL)
    (h2 : q.write_idx - q.min_read_idx_cache ≠ q.capacity) :
    try_emplace q v = (true, emplaceSlot q v) := by
  unfold try_emplace
  rw [if_neg (by tauto)]

lemma try_emplace_rescan_fail (q : Queue α R) (v : α)
    (htrig : q.min_read_idx_cache = SENTINEL ∨ q.write_idx - q.min_read_idx_cache = q.capacity)
    (hfail : scanMinRead q = SENTINEL ∨ q.write_idx - scanMinRead q = q.capacity) :
    try_emplace q v = (false, { q with min_read_idx_cache := scanMinRead q }) := by
  unfold try_emplace
  rw [if_pos htrig]
  dsimp only
  rw [if_pos hfail]

lemma try_emplace_rescan_pass (q : Queue α R) (v : α)
    (htrig : q.min_read_idx_cache = SENTINEL ∨ q.write_idx - q.min_read_idx_cache = q.capacity)
    (hok : ¬ (scanMinRead q = SENTINEL ∨ q.write_idx - scanMinRead q = q.capacity)) :
    try_emplace q v = (true, emplaceSlot { q with min_read_idx_cache := scanMinRead q } v) := by
  unfold try_emplace
  rw [if_pos htrig]
  dsimp only
  rw [if_neg hok]

lemma inv_front (q : Queue α R) (i : Fin R) (hq : Inv q) : Inv (front q i).2 := by
  rw [front_snd]
  by_cases h : (q.reader_cache i).read_local_idx = (q.reader_cache i).write_idx_cache
  · rw [if_pos h]
    refine ⟨hq.cap_pos, hq.cap_pow, hq.mask_eq, hq.hist_len, ?_, ?_, ?_, hq.slack_le_cap,
      hq.cache_lt_write, hq.cache_slack, hq.cache_le_read,
      hq.slots_recent, hq.slots_empty, hq.ctor_dtor_lo, hq.ctor_dtor_hi, hq.ctor_outside, hq.dtor_outside,
      hq.ctor_sum, hq.dtor_sum, ?_, ?_⟩ <;>
      (intro j hj
       by_cases hji : j = i
       · subst hji
         simp only [Function.update_same]
         first
           | exact hq.read_le_local j hj
           | exact Nat.le_trans (hq.local_le_wcache j hj) (hq.wcache_le_write j hj)
           | exact Nat.le_refl _
           | exact hq.start_le_local j hj
           | exact hq.consumed_eq j hj
       · simp only [Function.update_noteq hji]
         first
           | exact hq.read_le_local j hj
           | exact hq.local_le_wcache j hj
           | exact hq.wcache_le_write j hj
           | exact hq.start_le_local j hj
           | exact hq.consumed_eq j hj)
  · rw [if_neg h]
    exact hq

lemma inv_subscribe (q : Queue α R) (hq : Inv q) : Inv (subscribe q).2 := by
  cases hF : findFreeFrom q 0 with
  | none =>
    rw [subscribe_eq_none q hF]
    exact hq
  | some i =>
    rw [subscribe_eq_some q i hF]
    have hlw_le : (if q.write_idx = 0 then 0 else q.write_idx - 1) ≤ q.write_idx := by
      split <;> omega
    refine ⟨hq.cap_pos, hq.cap_pow, hq.mask_eq, hq.hist_len, ?_, ?_, ?_, ?_,
      hq.cache_lt_write, hq.cache_slack, ?_,
      hq.slots_recent, hq.slots_empty, hq.ctor_dtor_lo, hq.ctor_dtor_hi, hq.ctor_outside, hq.dtor_outside,
      hq.ctor_sum, hq.dtor_sum, ?_, ?_⟩
    · intro j hj
      by_cases hji : j = i
      · subst hji
        simp only [Function.update_same]
        exact Nat.le_refl _
      · simp only [Function.update_noteq hji] at hj ⊢
        exact hq.read_le_local j hj
    · intro j hj
      by_cases hji : j = i
      · subst hji
        simp only [Function.update_same]
        exact Nat.le_refl _
      · simp only [Function.update_noteq hji] at hj ⊢
        exact hq.local_le_wcache j hj
    · intro j hj
      by_cases hji : j = i
      · subst hji
        simp only [Function.update_same]
        exact hlw_le
      · simp only [Function.update_noteq hji] at hj ⊢
        exact hq.wcache_le_write j hj
    · intro j hj
      by_cases hji : j = i
      · subst hji
        simp only [Function.update_same] at hj ⊢
        have hcap := hq.cap_pos
        split <;> omega
      · simp only [Function.update_noteq hji] at hj ⊢
        exact hq.slack_le_cap j hj
    · intro hc j hj
      by_cases hji : j = i
      · subst hji
        simp only [Function.update_same] at hj ⊢
        have hlt := hq.cache_lt_write hc
        split <;> omega
      · simp only [Function.update_noteq hji] at hj ⊢
        exact hq.cache_le_read hc j hj
    · intro j hj
      by_cases hji : j = i
      · subst hji
        simp only [Function.update_same]
        exact Nat.le_refl _
      · simp only [Function.update_noteq hji] at hj ⊢
        exact hq.start_le_local j hj
    · intro j hj
      by_cases hji : j = i
      · subst hji
        simp only [Function.update_same]
        simp
      · simp only [Function.update_noteq hji] at hj ⊢
        exact hq.consumed_eq j hj

lemma take_drop_append_get (l : List α) (s n : Nat) (hs : s ≤ n) (_hn : n < l.length) :
    (l.drop s).take (n - s) ++ (l[n]?).toList = (l.drop s).take (n + 1 - s) := by
  have h1 : n + 1 - s = (n - s) + 1 := by omega
  rw [h1, List.take_succ]
  have h2 : (l.drop s)[n - s]? = l[n]? := by
    rw [List.getElem?_drop]
    congr 1
    omega
  rw [h2]

lemma inv_pop (q : Queue α R) (i : Fin R) (hq : Inv q)
    (hlive : q.read_idx i ≠ SENTINEL)
    (hready : (q.reader_cache i).read_local_idx < (q.reader_cache i).write_idx_cache) :
    Inv (pop q i) := by
  have hrdL := hq.read_le_local i hlive
  have hWw := hq.wcache_le_write i hlive
  have hslack := hq.slack_le_cap i hlive
  have hstart := hq.start_le_local i hlive
  have hcons := hq.consumed_eq i hlive
  have hlen := hq.hist_len
  have hLw : (q.reader_cache i).read_local_idx < q.write_idx := by omega
  have hwL : q.write_idx ≤ (q.reader_cache i).read_local_idx + q.capacity := by omega
  have hslot : q.slots ((q.reader_cache i).read_local_idx &&& q.capacity_minus_one) =
      q.hist[(q.reader_cache i).read_local_idx]? := by
    rw [and_mask_eq_mod q hq.cap_pow hq.mask_eq]
    exact hq.slots_recent _ hLw hwL
  have hconsumed' :
      (q.reader_cache i).consumed ++
        (q.slots ((q.reader_cache i).read_local_idx &&& q.capacity_minus_one)).toList =
      (q.hist.drop (q.reader_cache i).start_idx).take
        ((q.reader_cache i).read_local_idx + 1 - (q.reader_cache i).start_idx) := by
    rw [hcons, hslot]
    exact take_drop_append_get q.hist _ _ hstart (by omega)
  rw [pop_eq]
  by_cases hbatch :
      ((q.reader_cache i).read_local_idx + 1) &&& q.items_per_batch_minus_one = 0
  · rw [if_pos hbatch]
    refine ⟨hq.cap_pos, hq.cap_pow, hq.mask_eq, hq.hist_len, ?_, ?_, ?_, ?_,
      hq.cache_lt_write, hq.cache_slack, ?_,
      hq.slots_recent, hq.slots_empty, hq.ctor_dtor_lo, hq.ctor_dtor_hi, hq.ctor_outside, hq.dtor_outside,
      hq.ctor_sum, hq.dtor_sum, ?_, ?_⟩
    · intro j hj
      by_cases hji : j = i
      · subst hji
        simp only [Function.update_same]
        exact Nat.le_refl _
      · simp only [Function.update_noteq hji] at hj ⊢
        exact hq.read_le_local j hj
    · intro j hj
      by_cases hji : j = i
      · subst hji
        simp only [Function.update_same]
        omega
      · simp only [Function.update_noteq hji] at hj ⊢
        exact hq.local_le_wcache j hj
    · intro j hj
      by_cases hji : j = i
      · subst hji
        simp only [Function.update_same]
        exact hWw
      · simp only [Function.update_noteq hji] at hj ⊢
        exact hq.wcache_le_write j hj
    · intro j hj
      by_cases hji : j = i
      · subst hji
        simp only [Function.update_same]
        omega
      · simp only [Function.update_noteq hji] at hj ⊢
        exact hq.slack_le_cap j hj
    · intro hc j hj
      have hcr := hq.cache_le_read hc i hlive
      by_cases hji : j = i
      · subst hji
        simp only [Function.update_same]
        omega
      · simp only [Function.update_noteq hji] at hj ⊢
        exact hq.cache_le_read hc j hj
    · intro j hj
      by_cases hji : j = i
      · subst hji
        simp only [Function.update_same]
        omega
      · simp only [Function.update_noteq hji] at hj ⊢
        exact hq.start_le_local j hj
    · intro j hj
      by_cases hji : j = i
      · subst hji
        simp only [Function.update_same]
        exact hconsumed'
      · simp only [Function.update_noteq hji] at hj ⊢
        exact hq.consumed_eq j hj
  · rw [if_neg hbatch]
    refine ⟨hq.cap_pos, hq.cap_pow, hq.mask_eq, hq.hist_len, ?_, ?_, ?_, ?_,
      hq.cache_lt_write, hq.cache_slack, ?_,
      hq.slots_recent, hq.slots_empty, hq.ctor_dtor_lo, hq.ctor_dtor_hi, hq.ctor_outside, hq.dtor_outside,
      hq.ctor_sum, hq.dtor_sum, ?_, ?_⟩
    · intro j hj
      by_cases hji : j = i
      · subst hji
        simp only [Function.update_same]
        omega
      · simp only [Function.update_noteq hji] at hj ⊢
        exact hq.read_le_local j hj
    · intro j hj
      by_cases hji : j = i
      · subst hji
        simp only [Function.update_same]
        omega
      · simp only [Function.update_noteq hji] at hj ⊢
        exact hq.local_le_wcache j hj
    · intro j hj
      by_cases hji : j = i
      · subst hji
        simp only [Function.update_same]
        exact hWw
      · simp only [Function.update_noteq hji] at hj ⊢
        exact hq.wcache_le_write j hj
    · intro j hj
      by_cases hji : j = i
      · exact hji ▸ hslack
      · exact hq.slack_le_cap j hj
    · intro hc j hj
      by_cases hji : j = i
      · subst hji
        exact hq.cache_le_read hc j hlive
      · exact hq.cache_le_read hc j hj
    · intro j hj
      by_cases hji : j = i
      · subst hji
        simp only [Function.update_same]
        omega
      · simp only [Function.update_noteq hji] at hj ⊢
        exact hq.start_le_local j hj
    · intro j hj
      by_cases hji : j = i
      · subst hji
        simp only [Function.update_same]
        exact hconsumed'
      · simp only [Function.update_noteq hji] at hj ⊢
        exact hq.consumed_eq j hj

lemma sum_ite_add_one (n k : Nat) (f : Nat → Nat) (hk : k < n) :
    ∑ j ∈ Finset.range n, (if j = k then f j + 1 else f j) =
      (∑ j ∈ Finset.range n, f j) + 1 := by
  have hsplit : ∀ j, (if j = k then f j + 1 else f j) = f j + (if j = k then 1 else 0) := by
    intro j
    split <;> simp
  rw [Finset.sum_congr rfl (fun j _ => hsplit j), Finset.sum_add_distrib]
  have hone : (∑ j ∈ Finset.range n, if j = k then 1 else 0) = 1 := by
    rw [Finset.sum_ite_eq' (Finset.range n) k (fun _ => 1)]
    simp [Finset.mem_range.mpr hk]
  rw [hone]

lemma mod_ne_of_near (w p cap : Nat) (hlt : p < w)
    (hnear : w < p + cap) : w % cap ≠ p % cap := by
  intro hmod
  have hz : (w - p) % cap = 0 := Nat.sub_mod_eq_zero_of_mod_eq hmod
  obtain ⟨t, ht⟩ := Nat.dvd_of_mod_eq_zero hz
  rcases Nat.eq_zero_or_pos t with ht0 | htpos
  · subst ht0
    omega
  · have hge : cap ≤ cap * t := Nat.le_mul_of_pos_right cap htpos
    omega

lemma inv_emplaceSlot_gen (q : Queue α R) (v : α) (hq : Inv q) (m : Nat)
    (hm_le_w : m ≤ q.write_idx)
    (hm_gap : q.write_idx - m < q.capacity)
    (hm_le_read : ∀ j, q.read_idx j ≠ SENTINEL → m ≤ q.read_idx j) :
    Inv (emplaceSlot { q with min_read_idx_cache := m } v) := by
  rw [emplaceSlot_eq]
  dsimp only
  have hcap := hq.cap_pos
  have hlen := hq.hist_len
  have hmask : ∀ n : Nat, n &&& q.capacity_minus_one = n % q.capacity :=
    and_mask_eq_mod q hq.cap_pow hq.mask_eq
  have hmodlt : q.write_idx % q.capacity < q.capacity := Nat.mod_lt _ hcap
  refine ⟨hq.cap_pos, hq.cap_pow, hq.mask_eq, ?_, hq.read_le_local, hq.local_le_wcache,
    ?_, ?_, ?_, ?_, ?_, ?_, ?_, ?_, ?_, ?_, ?_, ?_, ?_, ?_, ?_⟩ <;> dsimp only
  · simp [hlen]
  · intro j hj
    exact Nat.le_trans (hq.wcache_le_write j hj) (by omega)
  · intro j hj
    have h1 := hm_le_read j hj
    omega
  · intro _
    omega
  · intro _
    omega
  · intro _ j hj
    exact hm_le_read j hj
  · -- slots_recent
    intro p hp hple
    rw [hmask]
    by_cases hpw : p = q.write_idx
    · subst hpw
      rw [if_pos rfl]
      rw [← hlen]
      exact (List.getElem?_concat_length q.hist v).symm
    · have hplt : p < q.write_idx := by omega
      have hne : p % q.capacity ≠ q.write_idx % q.capacity :=
        (mod_ne_of_near q.write_idx p q.capacity hplt (by omega)).symm
      rw [if_neg hne]
      rw [hq.slots_recent p hplt (by omega)]
      exact (List.getElem?_append_left (by omega)).symm
  · -- slots_empty
    intro k hk
    rw [hmask]
    have hne : k ≠ q.write_idx % q.capacity := by
      by_cases hw : q.write_idx < q.capacity
      · have : q.write_idx % q.capacity = q.write_idx := Nat.mod_eq_of_lt hw
        omega
      · omega
    rw [if_neg hne]
    exact hq.slots_empty k (by omega)
  · -- ctor_dtor_lo
    intro k hk
    rw [hmask]
    by_cases hkk : k = q.write_idx % q.capacity
    · subst hkk
      rw [if_pos rfl]
      by_cases hcw : q.capacity ≤ q.write_idx
      · rw [if_pos ⟨hcw, rfl⟩]
        have hold := hq.ctor_dtor_lo (q.write_idx % q.capacity) (by omega)
        omega
      · rw [if_neg (by tauto)]
        have hweq : q.write_idx % q.capacity = q.write_idx := Nat.mod_eq_of_lt (by omega)
        have hold := hq.ctor_dtor_hi (q.write_idx % q.capacity) (by omega) (by omega)
        omega
    · rw [if_neg hkk, if_neg (by tauto)]
      apply hq.ctor_dtor_lo k
      by_cases hw : q.write_idx < q.capacity
      · have hweq : q.write_idx % q.capacity = q.write_idx := Nat.mod_eq_of_lt hw
        omega
      · omega
  · -- ctor_dtor_hi
    intro k hk hkcap
    rw [hmask]
    have hne : k ≠ q.write_idx % q.capacity := by
      by_cases hw : q.write_idx < q.capacity
      · have hweq : q.write_idx % q.capacity = q.write_idx := Nat.mod_eq_of_lt hw
        omega
      · omega
    rw [if_neg hne, if_neg (by tauto)]
    exact hq.ctor_dtor_hi k (by omega) hkcap
  · -- ctor_outside
    intro k hkc
    rw [hmask]
    rw [if_neg (by omega)]
    exact hq.ctor_outside k hkc
  · -- dtor_outside
    intro k hkc
    rw [hmask]
    rw [if_neg ?_]
    · exact hq.dtor_outside k hkc
    · rintro ⟨h1, h2⟩
      omega
  · -- ctor_sum
    rw [sum_ite_add_one q.capacity (q.write_idx &&& q.capacity_minus_one) q.ctor_count
      (by rw [hmask]; exact hmodlt)]
    rw [hq.ctor_sum]
  · -- dtor_sum
    by_cases hcw : q.capacity ≤ q.write_idx
    · have hcong : ∀ j ∈ Finset.range q.capacity,
          (if q.capacity ≤ q.write_idx ∧ j = q.write_idx &&& q.capacity_minus_one
            then q.dtor_count j + 1 else q.dtor_count j) =
          (if j = q.write_idx &&& q.capacity_minus_one
            then q.dtor_count j + 1 else q.dtor_count j) := by
        intro j _
        by_cases hj : j = q.write_idx &&& q.capacity_minus_one
        · rw [if_pos ⟨hcw, hj⟩, if_pos hj]
        · rw [if_neg (by tauto), if_neg hj]
      rw [Finset.sum_congr rfl hcong]
      rw [sum_ite_add_one q.capacity (q.write_idx &&& q.capacity_minus_one) q.dtor_count
        (by rw [hmask]; exact hmodlt)]
      rw [hq.dtor_sum]
      omega
    · have hcong : ∀ j ∈ Finset.range q.capacity,
          (if q.capacity ≤ q.write_idx ∧ j = q.write_idx &&& q.capacity_minus_one
            then q.dtor_count j + 1 else q.dtor_count j) = q.dtor_count j := by
        intro j _
        rw [if_neg (by tauto)]
      rw [Finset.sum_congr rfl hcong]
      rw [hq.dtor_sum]
      omega
  · -- start_le_local
    exact hq.start_le_local
  · -- consumed_eq: the reader slices never reach the appended element
    intro j hj
    have hc := hq.consumed_eq j hj
    have hs := hq.start_le_local j hj
    have hlw : (q.reader_cache j).read_local_idx ≤ q.write_idx :=
      Nat.le_trans (hq.local_le_wcache j hj) (hq.wcache_le_write j hj)
    rw [hc]
    have hdrop : (q.hist ++ [v]).drop (q.reader_cache j).start_idx =
        q.hist.drop (q.reader_cache j).start_idx ++ [v] :=
      List.drop_append_of_le_length (by omega)
    rw [hdrop]
    exact (List.take_append_of_le_length (by rw [List.length_drop]; omega)).symm

lemma read_le_write (q : Queue α R) (hq : Inv q) (j : Fin R)
    (hj : q.read_idx j ≠ SENTINEL) : q.read_idx j ≤ q.write_idx :=
  Nat.le_trans (hq.read_le_local j hj)
    (Nat.le_trans (hq.local_le_wcache j hj) (hq.wcache_le_write j hj))

lemma inv_set_cache (q : Queue α R) (hq : Inv q) (m : Nat)
    (h1 : m ≠ SENTINEL → m < q.write_idx)
    (h2 : m ≠ SENTINEL → q.write_idx - m ≤ q.capacity)
    (h3 : m ≠ SENTINEL → ∀ j, q.read_idx j ≠ SENTINEL → m ≤ q.read_idx j) :
    Inv { q with min_read_idx_cache := m } :=
  ⟨hq.cap_pos, hq.cap_pow, hq.mask_eq, hq.hist_len, hq.read_le_local, hq.local_le_wcache,
    hq.wcache_le_write, hq.slack_le_cap, h1, h2, h3, hq.slots_recent, hq.slots_empty,
    hq.ctor_dtor_lo, hq.ctor_dtor_hi, hq.ctor_outside, hq.dtor_outside, hq.ctor_sum,
    hq.dtor_sum, hq.start_le_local, hq.consumed_eq⟩

lemma inv_try_emplace (q : Queue α R) (v : α) (hq : Inv q) : Inv (try_emplace q v).2 := by
  by_cases htrig :
      q.min_read_idx_cache = SENTINEL ∨ q.write_idx - q.min_read_idx_cache = q.capacity
  · by_cases hfail : scanMinRead q = SENTINEL ∨ q.write_idx - scanMinRead q = q.capacity
    · rw [try_emplace_rescan_fail q v htrig hfail]
      apply inv_set_cache q hq (scanMinRead q)
      · intro hm
        obtain ⟨j₀, hj₀⟩ := scanMinRead_mem q hm
        have hlive₀ : q.read_idx j₀ ≠ SENTINEL := by rw [← hj₀]; exact hm
        have hle : scanMinRead q ≤ q.write_idx := hj₀ ▸ read_le_write q hq j₀ hlive₀
        have hwm : q.write_idx - scanMinRead q = q.capacity := hfail.resolve_left hm
        have hcap := hq.cap_pos
        omega
      · intro hm
        have hwm : q.write_idx - scanMinRead q = q.capacity := hfail.resolve_left hm
        omega
      · intro _ j _
        exact scanMinRead_le_read q j
    · rw [try_emplace_rescan_pass q v htrig hfail]
      push_neg at hfail
      obtain ⟨hm, hwm⟩ := hfail
      obtain ⟨j₀, hj₀⟩ := scanMinRead_mem q hm
      have hlive₀ : q.read_idx j₀ ≠ SENTINEL := by rw [← hj₀]; exact hm
      have hle : scanMinRead q ≤ q.write_idx := hj₀ ▸ read_le_write q hq j₀ hlive₀
      have hslack := hq.slack_le_cap j₀ hlive₀
      apply inv_emplaceSlot_gen q v hq (scanMinRead q) hle
      · rw [hj₀]
        omega
      · intro j _
        exact scanMinRead_le_read q j
  · push_neg at htrig
    obtain ⟨h1, h2⟩ := htrig
    rw [try_emplace_entry_pass q v h1 h2]
    have hlt := hq.cache_lt_write h1
    have hsl := hq.cache_slack h1
    exact inv_emplaceSlot_gen q v hq q.min_read_idx_cache (by omega) (by omega)
      (hq.cache_le_read h1)

lemma inv_unsubscribe (q : Queue α R) (i : Fin R) (hq : Inv q) :
    Inv (unsubscribe q i) := by
  unfold unsubscribe
  refine ⟨hq.cap_pos, hq.cap_pow, hq.mask_eq, hq.hist_len, ?_, ?_, ?_, ?_,
    hq.cache_lt_write, hq.cache_slack, ?_,
    hq.slots_recent, hq.slots_empty, hq.ctor_dtor_lo, hq.ctor_dtor_hi, hq.ctor_outside, hq.dtor_outside,
    hq.ctor_sum, hq.dtor_sum, ?_, ?_⟩ <;>
  · first
    | (intro hc j hj
       by_cases hji : j = i
       · subst hji; simp [Function.update_apply] at hj
       · simp only [Function.update_apply, if_neg hji] at hj ⊢
         exact hq.cache_le_read hc j hj)
    | (intro j hj
       by_cases hji : j = i
       · subst hji; simp [Function.update_apply] at hj
       · simp only [Function.update_apply, if_neg hji] at hj ⊢
         first
           | exact hq.read_le_local j hj
           | exact hq.local_le_wcache j hj
           | exact hq.wcache_le_write j hj
           | exact hq.slack_le_cap j hj
           | exact hq.start_le_local j hj
           | exact hq.consumed_eq j hj)

lemma inv_reachable (q : Queue α R) (h : Reachable q) : Inv q := by
  induction h with
  | init requested batch q hmk => exact inv_init hmk
  | step q q' hq hs ih =>
    cases hs with
    | stepSubscribe => exact inv_subscribe q ih
    | stepUnsubscribe i => exact inv_unsubscribe q i ih
    | stepTryEmplace v => exact inv_try_emplace q v ih
    | stepFront i => exact inv_front q i ih
    | stepPop i hlive hready => exact inv_pop q i ih hlive hready

lemma npot16 : next_power_of_two 16 = 16 := by
  rw [next_power_of_two]
  rw [npotGo.eq_def]; norm_num
  rw [npotGo.eq_def]; norm_num
  rw [npotGo.eq_def]; norm_num
  rw [npotGo.eq_def]; norm_num
  rw [npotGo.eq_def]; norm_num

set_option maxRecDepth 2000 in
lemma mkQueue_eval : mkQueue Nat 2 16 4 = Except.ok qInit := by
  rw [mkQueue, npot16]
  norm_num [is_power_of_two, USIZE, SENTINEL]
  rfl

lemma reach_qInit : Reachable qInit := Reachable.init 16 4 qInit mkQueue_eval

lemma reach_qc1 : Reachable qc1 :=
  Reachable.step qInit qc1 reach_qInit (Step.stepSubscribe qInit)

lemma reach_qc2 : Reachable qc2 :=
  Reachable.step qc1 qc2 reach_qc1 (Step.stepTryEmplace qc1 10)

lemma reach_qc3 : Reachable qc3 :=
  Reachable.step qc2 qc3 reach_qc2 (Step.stepTryEmplace qc2 20)

lemma reach_qc4 : Reachable qc4 :=
  Reachable.step qc3 qc4 reach_qc3 (Step.stepTryEmplace qc3 30)

lemma reach_qc5 : Reachable qc5 :=
  Reachable.step qc4 qc5 reach_qc4 (Step.stepSubscribe qc4)

lemma reach_qc6 : Reachable qc6 :=
  Reachable.step qc5 qc6 reach_qc5 (Step.stepFront qc5 1)

lemma reach_qc7 : Reachable qc7 :=
  Reachable.step qc6 qc7 reach_qc6 (Step.stepPop qc6 1 (by decide) (by decide))

lemma live_read_lt_sentinel (q : Queue α R) (hq : Inv q) (hw : q.write_idx ≤ SENTINEL)
    (j : Fin R) (hj : q.read_idx j ≠ SENTINEL) : q.read_idx j < SENTINEL := by
  have := read_le_write q hq j hj
  omega

lemma minLive_eq_scan (q : Queue α R) (hq : Inv q) (hw : q.write_idx ≤ SENTINEL)
    (hlive : ∃ j : Fin R, q.read_idx j ≠ SENTINEL) :
    minLiveRead q = scanMinRead q := by
  obtain ⟨j, hj⟩ := hlive
  apply minLiveRead_eq_scanMinRead q j.pos
  intro j'
  by_cases hj' : q.read_idx j' = SENTINEL
  · omega
  · have := read_le_write q hq j' hj'
    omega

lemma scan_ne_sentinel (q : Queue α R) (hq : Inv q) (hw : q.write_idx ≤ SENTINEL)
    (hlive : ∃ j : Fin R, q.read_idx j ≠ SENTINEL) :
    scanMinRead q ≠ SENTINEL := by
  obtain ⟨j, hj⟩ := hlive
  have h1 := scanMinRead_le_read q j
  have h2 := live_read_lt_sentinel q hq hw j hj
  omega

/-- Claim C3: in every reachable queue state, each live (non-sentinel)
reader's published index is at most `write_idx` and lags it by at most
`capacity`; consequently `write_idx - min_live_read ≤ capacity` whenever
some reader is live (and the 64-bit counter is not exhausted).  The
preservation by every operation is exactly what the induction over
`Reachable` establishes (`inv_reachable`). -/
theorem c3_backpressure_invariant (q : Queue α R) (hreach : Reachable q) :
    (∀ i : Fin R, q.read_idx i ≠ SENTINEL →
      q.read_idx i ≤ q.write_idx ∧ q.write_idx - q.read_idx i ≤ q.capacity)
    ∧ (q.write_idx ≤ SENTINEL → (∃ i : Fin R, q.read_idx i ≠ SENTINEL) →
      q.write_idx - minLiveRead q ≤ q.capacity) := by
  have hq := inv_reachable q hreach
  constructor
  · intro i hi
    exact ⟨read_le_write q hq i hi, hq.slack_le_cap i hi⟩
  · intro hw hlive
    rw [minLive_eq_scan q hq hw hlive]
    obtain ⟨j₀, hj₀⟩ := scanMinRead_mem q (scan_ne_sentinel q hq hw hlive)
    have hlive₀ : q.read_idx j₀ ≠ SENTINEL := by
      rw [← hj₀]
      exact scan_ne_sentinel q hq hw hlive
    have := hq.slack_le_cap j₀ hlive₀
    omega

/-- Claim C3 witness: the invariant evaluated on the concrete reachable
state `qc7`. -/
theorem c3_backpressure_witness :
    qc7.read_idx 1 ≤ qc7.write_idx ∧ qc7.write_idx - qc7.read_idx 1 ≤ qc7.capacity :=
  (c3_backpressure_invariant qc7 reach_qc7).1 1 (by decide)

/-- Claim C2: with at least one subscribed reader (and the 64-bit counter
not exhausted), `try_emplace` returns `false` exactly when
`write_idx - min_live_read = capacity`; on `true` it constructs the
element in slot `write_idx & capacity_mask` and increments `write_idx`;
on `false` it changes neither `write_idx` nor any slot. -/
theorem c2_try_emplace_exact (q : Queue α R) (v : α)
    (hreach : Reachable q)
    (hlive : ∃ j : Fin R, q.read_idx j ≠ SENTINEL)
    (hw : q.write_idx ≤ SENTINEL) :
    ((try_emplace q v).1 = false ↔ q.write_idx - minLiveRead q = q.capacity)
    ∧ ((try_emplace q v).1 = true →
        (try_emplace q v).2.write_idx = q.write_idx + 1 ∧
        (try_emplace q v).2.hist = q.hist ++ [v] ∧
        (try_emplace q v).2.slots =
          fun k => if k = q.write_idx &&& q.capacity_minus_one then some v else q.slots k)
    ∧ ((try_emplace q v).1 = false →
        (try_emplace q v).2.write_idx = q.write_idx ∧
        (try_emplace q v).2.slots = q.slots) := by
  have hq := inv_reachable q hreach
  have hminscan := minLive_eq_scan q hq hw hlive
  have hmne := scan_ne_sentinel q hq hw hlive
  obtain ⟨j₀, hj₀⟩ := scanMinRead_mem q hmne
  have hlive₀ : q.read_idx j₀ ≠ SENTINEL := by rw [← hj₀]; exact hmne
  have hscan_le_w : scanMinRead q ≤ q.write_idx := hj₀ ▸ read_le_write q hq j₀ hlive₀
  have hscan_slack : q.write_idx - scanMinRead q ≤ q.capacity := by
    have := hq.slack_le_cap j₀ hlive₀
    omega
  by_cases htrig :
      q.min_read_idx_cache = SENTINEL ∨ q.write_idx - q.min_read_idx_cache = q.capacity
  · by_cases hfail : scanMinRead q = SENTINEL ∨ q.write_idx - scanMinRead q = q.capacity
    · rw [try_emplace_rescan_fail q v htrig hfail]
      have hfull : q.write_idx - scanMinRead q = q.capacity := hfail.resolve_left hmne
      refine ⟨?_, ?_, ?_⟩
      · rw [hminscan]
        exact ⟨fun _ => hfull, fun _ => rfl⟩
      · intro hcon
        cases hcon
      · intro _
        exact ⟨rfl, rfl⟩
    · rw [try_emplace_rescan_pass q v htrig hfail]
      push_neg at hfail
      refine ⟨?_, ?_, ?_⟩
      · rw [hminscan]
        constructor
        · intro hcon
          cases hcon
        · intro hfull
          exact absurd hfull hfail.2
      · intro _
        rw [emplaceSlot_eq]
        exact ⟨rfl, rfl, rfl⟩
      · intro hcon
        cases hcon
  · push_neg at htrig
    obtain ⟨h1, h2⟩ := htrig
    rw [try_emplace_entry_pass q v h1 h2]
    have hcr : q.min_read_idx_cache ≤ scanMinRead q := by
      rw [hj₀]
      exact hq.cache_le_read h1 j₀ hlive₀
    have hcs := hq.cache_slack h1
    refine ⟨?_, ?_, ?_⟩
    · rw [hminscan]
      constructor
      · intro hcon
        cases hcon
      · intro hfull
        omega
    · intro _
      rw [emplaceSlot_eq]
      exact ⟨rfl, rfl, rfl⟩
    · intro hcon
      cases hcon

/-- Claim C2 witness: on the concrete reachable state `qc1` (one live
reader at index 0, `write_idx = 0`), the queue is not full and
`try_emplace` succeeds. -/
theorem c2_try_emplace_witness :
    (try_emplace qc1 (10 : Nat)).1 = false ↔
      qc1.write_idx - minLiveRead qc1 = qc1.capacity :=
  (c2_try_emplace_exact qc1 10 reach_qc1 ⟨0, by decide⟩ (by decide)).1

/-- Claim C4: for a live reader, `front` returns null exactly when the
reader's local index equals the current `write_idx` (refreshing the
cached producer index as needed), otherwise it returns the address
(slot offset) `read_local_idx & capacity_mask`; it mutates nothing but
that reader's `write_idx_cache`, and a second call returns the same
result. -/
theorem c4_front_contract (q : Queue α R) (i : Fin R)
    (hreach : Reachable q) (hlive : q.read_idx i ≠ SENTINEL) :
    ((front q i).1 = none ↔ (q.reader_cache i).read_local_idx = q.write_idx)
    ∧ ((front q i).1 ≠ none →
        (front q i).1 = some ((q.reader_cache i).read_local_idx &&& q.capacity_minus_one))
    ∧ ((front q i).2.read_idx = q.read_idx
       ∧ (front q i).2.write_idx = q.write_idx
       ∧ (front q i).2.slots = q.slots
       ∧ (front q i).2.hist = q.hist
       ∧ (front q i).2.min_read_idx_cache = q.min_read_idx_cache
       ∧ (front q i).2.ctor_count = q.ctor_count
       ∧ (front q i).2.dtor_count = q.dtor_count
       ∧ (∀ j : Fin R, j ≠ i → (front q i).2.reader_cache j = q.reader_cache j)
       ∧ ((front q i).2.reader_cache i).read_local_idx = (q.reader_cache i).read_local_idx
       ∧ ((front q i).2.reader_cache i).start_idx = (q.reader_cache i).start_idx
       ∧ ((front q i).2.reader_cache i).consumed = (q.reader_cache i).consumed)
    ∧ ((front (front q i).2 i).1 = (front q i).1) := by
  have hq := inv_reachable q hreach
  have hle1 := hq.local_le_wcache i hlive
  have hle2 := hq.wcache_le_write i hlive
  refine ⟨?_, ?_, ?_, ?_⟩
  · rw [front_fst]
    by_cases hcond : ((q.reader_cache i).read_local_idx = (q.reader_cache i).write_idx_cache ∧
        (q.reader_cache i).read_local_idx = q.write_idx)
    · rw [if_pos hcond]
      simp [hcond.2]
    · rw [if_neg hcond]
      constructor
      · intro hcon
        cases hcon
      · intro hlw
        exact absurd ⟨by omega, hlw⟩ hcond
  · intro hne
    rw [front_fst] at hne ⊢
    by_cases hcond : ((q.reader_cache i).read_local_idx = (q.reader_cache i).write_idx_cache ∧
        (q.reader_cache i).read_local_idx = q.write_idx)
    · rw [if_pos hcond] at hne
      exact absurd rfl hne
    · rw [if_neg hcond]
  · rw [front_snd]
    by_cases h : (q.reader_cache i).read_local_idx = (q.reader_cache i).write_idx_cache
    · rw [if_pos h]
      refine ⟨rfl, rfl, rfl, rfl, rfl, rfl, rfl, ?_, ?_, ?_, ?_⟩
      · intro j hji
        exact Function.update_noteq hji _ _
      · simp [Function.update_same]
      · simp [Function.update_same]
      · simp [Function.update_same]
    · rw [if_neg h]
      exact ⟨rfl, rfl, rfl, rfl, rfl, rfl, rfl, fun j _ => rfl, rfl, rfl, rfl⟩
  · rw [front_snd]
    by_cases h : (q.reader_cache i).read_local_idx = (q.reader_cache i).write_idx_cache
    · rw [if_pos h]
      rw [front_fst, front_fst]
      simp only [Function.update_same]
      by_cases h2 : (q.reader_cache i).read_local_idx = q.write_idx
      · rw [if_pos ⟨h2, h2⟩, if_pos ⟨h, h2⟩]
      · rw [if_neg (by tauto), if_neg (by tauto)]
    · rw [if_neg h]

/-- Claim C4 witness: at the reachable state `qc5`, reader 1 has an
unconsumed element, so `front` is non-null and returns slot offset 2;
its local index 2 differs from `write_idx = 3`. -/
theorem c4_front_witness :
    ¬ ((front qc5 1).1 = none) ∧
      (front qc5 1).1 = some ((qc5.reader_cache 1).read_local_idx &&& qc5.capacity_minus_one) := by
  have h := c4_front_contract qc5 1 reach_qc5 (by decide)
  have hne : ¬ ((front qc5 1).1 = none) := by
    rw [h.1]
    decide
  exact ⟨hne, h.2.1 hne⟩

/-- Claim C5: `pop` on the state just after a non-null `front` increments
the reader's local index by exactly one, publishes it into
`read_idx[id]` exactly when the new value has all batch-mask bits clear,
and changes nothing else (producer index, slots, history, producer cache
and all other readers are untouched). -/
theorem c5_pop_effect (q : Queue α R) (i : Fin R)
    (_hlive : q.read_idx i ≠ SENTINEL)
    (_hfront : (front q i).1 ≠ none) :
    (((pop (front q i).2 i).reader_cache i).read_local_idx =
        ((front q i).2.reader_cache i).read_local_idx + 1)
    ∧ ((pop (front q i).2 i).read_idx i =
        (if (((front q i).2.reader_cache i).read_local_idx + 1) &&&
            (front q i).2.items_per_batch_minus_one = 0
         then ((front q i).2.reader_cache i).read_local_idx + 1
         else (front q i).2.read_idx i))
    ∧ (pop (front q i).2 i).write_idx = (front q i).2.write_idx
    ∧ (pop (front q i).2 i).slots = (front q i).2.slots
    ∧ (pop (front q i).2 i).hist = (front q i).2.hist
    ∧ (pop (front q i).2 i).min_read_idx_cache = (front q i).2.min_read_idx_cache
    ∧ (∀ j : Fin R, j ≠ i →
        (pop (front q i).2 i).read_idx j = (front q i).2.read_idx j ∧
        (pop (front q i).2 i).reader_cache j = (front q i).2.reader_cache j) := by
  generalize (front q i).2 = s
  rw [pop_eq]
  by_cases hbatch :
      ((s.reader_cache i).read_local_idx + 1) &&& s.items_per_batch_minus_one = 0
  · rw [if_pos hbatch, if_pos hbatch]
    refine ⟨?_, ?_, rfl, rfl, rfl, rfl, ?_⟩
    · simp [Function.update_same]
    · simp [Function.update_same]
    · intro j hji
      exact ⟨Function.update_noteq hji _ _, Function.update_noteq hji _ _⟩
  · rw [if_neg hbatch, if_neg hbatch]
    refine ⟨?_, rfl, rfl, rfl, rfl, rfl, ?_⟩
    · simp [Function.update_same]
    · intro j hji
      exact ⟨rfl, Function.update_noteq hji _ _⟩

/-- Claim C5 witness: reader 1 popping at `qc6` (right after its
non-null `front`) advances its local index from 2 to 3 and, since
`3 & batch_mask = 3 ≠ 0`, does not publish. -/
theorem c5_pop_witness :
    ((pop (front qc5 1).2 1).reader_cache 1).read_local_idx =
      ((front qc5 1).2.reader_cache 1).read_local_idx + 1 :=
  (c5_pop_effect qc5 1 (by decide) (by decide)).1

lemma indicator_sum_min (cap m : Nat) (hm : m ≤ cap) :
    (∑ k ∈ Finset.range cap, if k < m then 1 else 0) = m := by
  have hcong : ∀ k ∈ Finset.range cap, (if k < m then 1 else 0) =
      (if k ∈ Finset.range m then 1 else 0) := by
    intro k _
    simp [Finset.mem_range]
  rw [Finset.sum_congr rfl hcong]
  rw [Finset.sum_ite_mem]
  have hinter : Finset.range cap ∩ Finset.range m = Finset.range m := by
    ext k
    simp [Finset.mem_range, Finset.mem_inter]
    omega
  rw [hinter]
  simp

/-- Claim C6: over any reachable state of the queue, the ghost counters
show that the number of constructions performed equals `write_idx`, and
that running the destructor sweep from that state destroys every
constructed object exactly once: per slot the final destruction count
equals the construction count, the total destruction count equals the
total construction count, and a slot currently holds a live object
exactly when its constructions exceed its destructions so far.  (The
destruction counting matches the non-trivially-destructible
instantiation, where `try_emplace` destroys the previous occupant on
overwrite and the destructor destroys `slots[0..min(write_idx,
capacity))`.) -/
theorem c6_lifetime_balance (q : Queue α R) (hreach : Reachable q) :
    ((∑ k ∈ Finset.range q.capacity, q.ctor_count k) = q.write_idx)
    ∧ (∀ k, k < q.capacity → destroySweep q k = q.ctor_count k)
    ∧ ((∑ k ∈ Finset.range q.capacity, destroySweep q k) = q.write_idx)
    ∧ (∀ k, k < q.capacity → ((q.slots k).isSome ↔ q.dtor_count k < q.ctor_count k)) := by
  have hq := inv_reachable q hreach
  have hcap := hq.cap_pos
  have hlen := hq.hist_len
  refine ⟨hq.ctor_sum, ?_, ?_, ?_⟩
  · intro k hk
    unfold destroySweep
    by_cases hkm : k < min q.write_idx q.capacity
    · rw [if_pos hkm]
      have := hq.ctor_dtor_lo k hkm
      omega
    · rw [if_neg hkm]
      have := hq.ctor_dtor_hi k (by omega) hk
      omega
  · unfold destroySweep
    rw [Finset.sum_add_distrib]
    rw [hq.dtor_sum, indicator_sum_min q.capacity (min q.write_idx q.capacity) (by omega)]
    omega
  · intro k hk
    constructor
    · intro hsome
      by_cases hkm : k < min q.write_idx q.capacity
      · have := hq.ctor_dtor_lo k hkm
        omega
      · rw [hq.slots_empty k (by omega)] at hsome
        cases hsome
    · intro hlt
      by_cases hkm : k < min q.write_idx q.capacity
      · -- the slot holds the value at the latest position ≡ k below write_idx
        have hkw : k < q.write_idx := by omega
        have hkc : k < q.capacity := hk
        have hdm := Nat.div_add_mod (q.write_idx - 1 - k) q.capacity
        set t := (q.write_idx - 1 - k) / q.capacity with ht
        set r := (q.write_idx - 1 - k) % q.capacity with hr
        have hrlt : r < q.capacity := Nat.mod_lt _ hcap
        have hp : k + q.capacity * t < q.write_idx := by omega
        have hmod : (k + q.capacity * t) % q.capacity = k := by
          rw [Nat.add_mul_mod_self_left]
          exact Nat.mod_eq_of_lt hkc
        have hs := hq.slots_recent (k + q.capacity * t) hp (by omega)
        rw [hmod] at hs
        rw [hs]
        have : k + q.capacity * t < q.hist.length := by omega
        simp [List.getElem?_eq_getElem this]
      · have := hq.ctor_dtor_hi k (by omega) hk
        omega

/-- Claim C6 witness: at the reachable state `qc4` (three elements
emplaced into a capacity-16 queue), three slots were constructed and the
destructor sweep destroys exactly those three. -/
theorem c6_lifetime_witness :
    (∑ k ∈ Finset.range qc4.capacity, qc4.ctor_count k) = qc4.write_idx ∧
      (∑ k ∈ Finset.range qc4.capacity, destroySweep qc4 k) = qc4.write_idx := by
  have h := c6_lifetime_balance qc4 reach_qc4
  exact ⟨h.1, h.2.2.1⟩

/-- Claim C1 (amended): a reader subscribing when the producer's write
index is `w` starts at position `w - 1` (or 0 when `w = 0`), not `w`:
the most recently written element is delivered to it as its first
element rather than being treated as consumed.  Precisely: on every
reachable state the sequence of values a live reader's `front`/`pop`
loop has returned is the contiguous slice of the emplaced history from
its subscribe-time start position `start = w - 1` to its current local
index (hence a prefix of the emplaced sequence starting at `w - 1`);
`subscribe` sets that start position to `w - 1` (0 when `w = 0`) with an
empty returned sequence; and a non-null `front` hands out exactly the
element of the history at the reader's local index. -/
theorem c1_reader_sequence_amended (q : Queue α R) (hreach : Reachable q) :
    (∀ i : Fin R, q.read_idx i ≠ SENTINEL →
       (q.reader_cache i).start_idx ≤ (q.reader_cache i).read_local_idx ∧
       (q.reader_cache i).consumed =
         (q.hist.drop (q.reader_cache i).start_idx).take
           ((q.reader_cache i).read_local_idx - (q.reader_cache i).start_idx))
    ∧ (∀ i : Fin R, (subscribe q).1 = some i →
       ((subscribe q).2.reader_cache i).start_idx =
           (if q.write_idx = 0 then 0 else q.write_idx - 1) ∧
       ((subscribe q).2.reader_cache i).consumed = [])
    ∧ (∀ i : Fin R, q.read_idx i ≠ SENTINEL →
       (q.reader_cache i).read_local_idx < q.write_idx →
       frontVal q i = q.hist[(q.reader_cache i).read_local_idx]?) := by
  have hq := inv_reachable q hreach
  refine ⟨?_, ?_, ?_⟩
  · intro i hi
    exact ⟨hq.start_le_local i hi, hq.consumed_eq i hi⟩
  · intro i hsub
    cases hF : findFreeFrom q 0 with
    | none =>
      rw [subscribe_eq_none q hF] at hsub
      cases hsub
    | some i' =>
      rw [subscribe_eq_some q i' hF] at hsub ⊢
      have hii : i' = i := by
        simpa using hsub
      subst hii
      simp [Function.update_same]
  · intro i hi hlt
    unfold frontVal
    rw [front_fst, if_neg (by omega)]
    have hr := hq.read_le_local i hi
    have hs := hq.slack_le_cap i hi
    rw [Option.some_bind]
    rw [and_mask_eq_mod q hq.cap_pow hq.mask_eq]
    exact hq.slots_recent _ hlt (by omega)

/-- Claim C1 witness: the amended theorem evaluated at the reachable
state `qc7`: reader 1 subscribed at `write_idx = 3`, started at
position 2, and its returned sequence `[30]` is the slice `[2, 3)` of
the emplaced history `[10, 20, 30]`. -/
theorem c1_reader_sequence_witness :
    (qc7.reader_cache 1).start_idx ≤ (qc7.reader_cache 1).read_local_idx ∧
    (qc7.reader_cache 1).consumed =
      (qc7.hist.drop (qc7.reader_cache 1).start_idx).take
        ((qc7.reader_cache 1).read_local_idx - (qc7.reader_cache 1).start_idx) :=
  (c1_reader_sequence_amended qc7 reach_qc7).1 1 (by decide)

/-- Claim C1 counterexample: reader 1 subscribes to `qc4` where the
producer's write index is `w = 3`.  No further element is emplaced, yet
its `front`/`pop` loop returns `[30]` — the element at position
`w - 1 = 2`, emplaced before the subscription.  The emplaced sequence
from position `w = 3` on is empty, and `[30]` is not a prefix of the
empty sequence, refuting "the reader sees only strictly future
messages" and "the most recently written element is treated as already
consumed". -/
theorem c1_reader_sequence_counterexample :
    qc4.write_idx = 3
    ∧ (subscribe qc4).1 = some 1
    ∧ qc7.hist = [10, 20, 30]
    ∧ (qc7.reader_cache 1).consumed = [30]
    ∧ qc7.hist.drop 3 = []
    ∧ ¬ (qc7.hist.drop 3).take ((qc7.reader_cache 1).consumed.length) =
        (qc7.reader_cache 1).consumed := by
  refine ⟨by decide, by decide, by decide, by decide, by decide, by decide⟩

lemma effcap_le (requested : Nat) (hreq : requested ≤ 2 ^ 63) :
    max 16 (next_power_of_two requested) ≤ 2 ^ 63 := by
  have h1 : next_power_of_two requested ≤ 2 ^ 63 := npot_least requested 63 hreq
  omega

lemma ipb_roundtrip (x : Nat) (hx : x < USIZE) :
    ((x + (USIZE - 1)) % USIZE + 1) % USIZE = x := by
  simp only [USIZE] at *
  omega

/-- Claim C7: for positive `reader_batch_size` (and a requested capacity
in the representable range), construction fails with the
invalid-capacity error exactly when the effective capacity (the request
rounded up to a power of two with a floor of 16) divided by
`reader_batch_size` is not a power of two, and otherwise produces a
queue.  On failure no queue value exists (allocation is not modelled:
nothing is allocated before validation succeeds). -/
theorem c7_construct_validation (α : Type) (R : Nat) (requested batch : Nat)
    (hb : 0 < batch) (hreq : requested ≤ 2 ^ 63) :
    (mkQueue α R requested batch = Except.error ConstructError.invalidCapacity ↔
      is_power_of_two ((max 16 (next_power_of_two requested)) / batch) = false)
    ∧ ((∃ q0 : Queue α R, mkQueue α R requested batch = Except.ok q0) ↔
      is_power_of_two ((max 16 (next_power_of_two requested)) / batch) = true) := by
  have hcap63 := effcap_le requested hreq
  have hx : max 16 (next_power_of_two requested) / batch < USIZE := by
    have h1 : max 16 (next_power_of_two requested) / batch ≤
        max 16 (next_power_of_two requested) := Nat.div_le_self _ _
    have h2 : (2 : Nat) ^ 63 < USIZE := by
      simp only [USIZE]
      norm_num
    omega
  have hround := ipb_roundtrip (max 16 (next_power_of_two requested) / batch) hx
  unfold mkQueue
  rw [if_neg (by omega)]
  dsimp only
  rw [hround]
  cases hP : is_power_of_two (max 16 (next_power_of_two requested) / batch) with
  | true =>
    simp
  | false =>
    simp

/-- Claim C7 witness: requesting capacity 16 with batch size 4 gives
effective capacity 16, `16 / 4 = 4` is a power of two, and construction
does not fail with the invalid-capacity error. -/
theorem c7_construct_witness :
    mkQueue Nat 2 16 4 = Except.error ConstructError.invalidCapacity ↔
      is_power_of_two ((max 16 (next_power_of_two 16)) / 4) = false :=
  (c7_construct_validation Nat 2 16 4 (by omega) (by norm_num)).1

/-- Claim C8: `subscribe` fails (the C++ `MaxConsumersReached` throw,
returning `none` here) exactly when no entry of `read_idx` holds the
sentinel, and then the state is unchanged; on success it returns the
smallest index whose entry was the sentinel, sets that entry and the
reader cache indices to `write_idx - 1` (0 when `write_idx = 0`), and
touches nothing else. -/
theorem c8_subscribe_contract (q : Queue α R) :
    ((subscribe q).1 = none ↔ ∀ i : Fin R, q.read_idx i ≠ SENTINEL)
    ∧ ((subscribe q).1 = none → (subscribe q).2 = q)
    ∧ (∀ i : Fin R, (subscribe q).1 = some i →
        q.read_idx i = SENTINEL
        ∧ (∀ j : Fin R, j.val < i.val → q.read_idx j ≠ SENTINEL)
        ∧ (subscribe q).2.read_idx i = (if q.write_idx = 0 then 0 else q.write_idx - 1)
        ∧ ((subscribe q).2.reader_cache i).read_local_idx =
            (if q.write_idx = 0 then 0 else q.write_idx - 1)
        ∧ ((subscribe q).2.reader_cache i).write_idx_cache =
            (if q.write_idx = 0 then 0 else q.write_idx - 1)
        ∧ (∀ j : Fin R, j ≠ i → (subscribe q).2.read_idx j = q.read_idx j
            ∧ (subscribe q).2.reader_cache j = q.reader_cache j)
        ∧ (subscribe q).2.write_idx = q.write_idx) := by
  cases hF : findFreeFrom q 0 with
  | none =>
    rw [subscribe_eq_none q hF]
    refine ⟨?_, fun _ => rfl, ?_⟩
    · simp only [true_iff]
      exact (findFreeFrom_none_iff q).mp hF
    · intro i hcon
      cases hcon
  | some i' =>
    rw [subscribe_eq_some q i' hF]
    obtain ⟨hS, hleast⟩ := findFreeFrom_some_least q i' hF
    refine ⟨?_, ?_, ?_⟩
    · constructor
      · intro hcon
        cases hcon
      · intro hall
        exact absurd hS (hall i')
    · intro hcon
      cases hcon
    · intro i hsome
      have hii : i' = i := by simpa using hsome
      subst hii
      refine ⟨hS, hleast, ?_, ?_, ?_, ?_, rfl⟩
      · simp [Function.update_same]
      · simp [Function.update_same]
      · simp [Function.update_same]
      · intro j hji
        exact ⟨Function.update_noteq hji _ _, Function.update_noteq hji _ _⟩

/-- Claim C8 witness: on the one-reader state `qFull` whose only slot is
occupied, `subscribe` fails and leaves the state unchanged; on the
reachable state `qc4` it succeeds with the smallest free index, 1. -/
theorem c8_subscribe_witness :
    (subscribe qFull).1 = none ∧ (subscribe qFull).2 = qFull ∧
      (subscribe qc4).1 = some 1 := by
  have h := c8_subscribe_contract qFull
  have hnone : (subscribe qFull).1 = none := by
    exact h.1.mpr (by decide)
  exact ⟨hnone, h.2.1 hnone, by decide⟩

/-- Claim C9 (amended): the idealized `next_power_of_two` loop computes
the least power of two `≥ v`, with `v = 0` giving 1; the 64-bit machine
loop agrees and terminates for every `v ≤ 2^63` (64 iterations always
suffice), but for `v > 2^63` the doubling overflows to 0 and the loop
never terminates (see the counterexample), so the function is not total
on all 64-bit inputs; `is_power_of_two n` is true exactly when `n ≠ 0`
and `n & (n-1) = 0`, equivalently when `n` is a power of two. -/
theorem c9_next_power_amended :
    (∀ v, v ≤ 2 ^ 63 → npotLoopFuel v 64 1 = some (next_power_of_two v))
    ∧ (∀ v, v ≤ next_power_of_two v)
    ∧ (∀ v, ∃ k, next_power_of_two v = 2 ^ k)
    ∧ (∀ v m, v ≤ 2 ^ m → next_power_of_two v ≤ 2 ^ m)
    ∧ next_power_of_two 0 = 1
    ∧ (∀ n, is_power_of_two n = true ↔ (n ≠ 0 ∧ n &&& (n - 1) = 0))
    ∧ (∀ n, is_power_of_two n = true ↔ ∃ k, n = 2 ^ k) :=
  ⟨npot_machine_eval, npot_ge, npot_pow, npot_least, npot_zero,
    is_power_of_two_iff_code, is_power_of_two_iff_pow⟩

/-- Claim C9 witness: the machine loop on input 20 terminates within 64
iterations and returns `next_power_of_two 20`, which the machine
computation shows to be 32. -/
theorem c9_next_power_witness :
    npotLoopFuel 20 64 1 = some (next_power_of_two 20) ∧
      npotLoopFuel 20 64 1 = some 32 :=
  ⟨c9_next_power_amended.1 20 (by norm_num), by decide⟩

/-- Claim C9 counterexample: on the 64-bit input `2^63 + 1` the compiled
`next_power_of_two` loop never terminates — `power` doubles to `2^63`,
overflows to 0, and the guard `0 < v` then holds forever — refuting
"total on 64-bit unsigned inputs: for every v it terminates". -/
theorem c9_next_power_counterexample : ¬ npotMachineTerminates (2 ^ 63 + 1) :=
  npot_machine_diverges (2 ^ 63 + 1) (by omega)

/-- Claim C10: in the total embedding, whose division is guarded, the
constructor reaches the division-by-zero error branch exactly when
`reader_batch_size = 0`; for every positive batch size the branch is
unreachable.  (The C++ computes `_capacity / reader_batch_size`
unguarded, so `reader_batch_size ≥ 1` is an unstated precondition.) -/
theorem c10_divzero_guard (α : Type) (R : Nat) (requested batch : Nat) :
    mkQueue α R requested batch = Except.error ConstructError.divByZero ↔ batch = 0 := by
  unfold mkQueue
  by_cases hb : batch = 0
  · rw [if_pos hb]
    simp [hb]
  · rw [if_neg hb]
    dsimp only
    constructor
    · intro h
      split at h
      · simp at h
      · simp at h
    · intro h
      exact absurd h hb

/-- Claim C10 witness: batch size 0 reaches the division-by-zero branch;
batch size 4 does not. -/
theorem c10_divzero_witness :
    mkQueue Nat 1 16 0 = Except.error ConstructError.divByZero ∧
      ¬ mkQueue Nat 1 16 4 = Except.error ConstructError.divByZero := by
  constructor
  · exact (c10_divzero_guard Nat 1 16 0).mpr rfl
  · intro hcon
    exact absurd ((c10_divzero_guard Nat 1 16 4).mp hcon) (by omega)

end LockfreeQueues
